import Mathlib

/-!
# Verification of the dicey-dice engine

A shallow embedding of the dicey-dice hexagonal dice-territory engine,
with theorems settling the specification claims.

Sources embedded here:
* `src/hexagon/coordinate.rs` — cube/axial coordinates and neighbour queries;
* `src/hexagon/grid.rs` — the grid (a vector of `(Cube, T)` pairs with a
  last-write-wins coordinate index) and rectangular layout generation;
* `src/game/player.rs` — `Player` and the `Players` roster;
* `src/game/model.rs` — `Board`, `Action`, `Consequence`, `Choice`, `Score`,
  and the `Tree`;
* `src/game/generate.rs` — the breadth-first expanders;
* `src/game/score.rs` — the recursive back-propagation scorer;
* `src/session.rs` — session state, forced-move collapse and `advance`.

The final revision of `src/game/rules.rs` is absent from the tree: the file
present there is an older revision whose signatures (a one-argument
`choices_from_board_only_pass_at_end`, a two-field `Attack`, a `Hold` without
a `mobile` flag, a three-argument `Board::new`) do not match the callers in
`generate.rs` nor the declarations in `model.rs`.  The rules functions below
are therefore modelled from the specification's final semantics (spec §4.2)
and are marked `Modelled from the spec:` in their doc comments.

Machine integers (`u8`, `i32`, `usize`) are modelled as `Nat`/`Int`; none of
the embedded arithmetic approaches the machine bounds.  The `f64` score
destination is modelled as `ℚ`; every destination the engine produces is a
quotient of small tile counts, where `f64` and `ℚ` ordering agree.
-/

namespace DiceyDice

/-- A player: numeric id plus printable glyph (`player.rs::Player`). -/
structure Player where
  number : Nat
  display : Char
deriving DecidableEq, Repr

/-- The out-of-band sentinel player (`player.rs::Player::default`,
`MAX_PLAYERS + 1 = 9` with glyph `~`). -/
def Player.sentinel : Player := ⟨9, '~'⟩

/-- The players roster (`player.rs::Players`): a fixed ring of eight slots
with a current index, a playing array and an out array. -/
structure Players where
  players : Nat
  current : Nat
  count : Nat
  playing : List (Option Player)
  out : List (Option Player)
deriving DecidableEq, Repr

/-- The eight filled player slots built by `Players::new` (it fills every
slot of the `MAX_PLAYERS` array regardless of the requested count). -/
def Players.fullSlots : List (Option Player) :=
  (List.range 8).map (fun i => some ⟨i + 1, Char.ofNat (65 + i)⟩)

/-- Embeds `player.rs::Players::new`: clamps the requested count into `[2, 8]`. -/
def Players.new (n : Nat) : Players :=
  let n' := if n > 8 then 8 else if n < 2 then 2 else n
  ⟨n', 0, n', Players.fullSlots, List.replicate 8 none⟩

/-- Embeds `player.rs::Players::current`: the player in the current slot.  The
source unwraps; the sentinel stands in for the unreachable `None` case. -/
def Players.currentPlayer (ps : Players) : Player :=
  (ps.playing.getD ps.current none).getD Player.sentinel

/-- Embeds `player.rs::Players::next`: copy of self with the current index
incremented, wrapping at `count`. -/
def Players.next (ps : Players) : Players :=
  let c := ps.current + 1
  { ps with current := if c ≥ ps.count then 0 else c }

/-- One step of the shuffle-down loop in `Players::remove_current`: if slot
`i` is occupied, its occupant moves to slot `i - 1` and slot `i` is cleared. -/
def Players.shuffleStep (l : List (Option Player)) (i : Nat) : List (Option Player) :=
  match l.getD i none with
  | none => l
  | some p => (l.set (i - 1) (some p)).set i none

/-- Embeds `player.rs::Players::remove_current`: move the current player into the
`out` array, shuffle later slots down, decrement the count, and wrap the
current index if needed.  Removing the last player is a no-op. -/
def Players.removeCurrent (ps : Players) : Players :=
  if ps.count = 1 then ps
  else
    let removed := ps.playing.getD ps.current none
    let out' := ps.out.set ps.current removed
    let playing' := ps.playing.set ps.current none
    let playing'' := (List.range' (ps.current + 1) (8 - (ps.current + 1))).foldl
      Players.shuffleStep playing'
    let count' := ps.count - 1
    { players := ps.players
      current := if ps.current ≥ count' then 0 else ps.current
      count := count'
      playing := playing''
      out := out' }

/-- Modelled from the spec: the ordered playing set of the roster.  The
final `player.rs` exposes a `playing()` accessor returning the players still
in the game (used by `score.rs` tests and `session.rs`); it is absent from
the revision in the tree. -/
def Players.playingPlayers (ps : Players) : List Player :=
  (ps.playing.take ps.count).filterMap id

/-- A cube coordinate (`coordinate.rs::Cube`). -/
structure Cube where
  x : Int
  y : Int
  z : Int
deriving DecidableEq, Repr

/-- Componentwise addition (`impl ops::Add for Cube`). -/
def Cube.add (a b : Cube) : Cube := ⟨a.x + b.x, a.y + b.y, a.z + b.z⟩

/-- Embeds `DIRECTION[Left]`. -/
def dirLeft : Cube := ⟨-1, 1, 0⟩
/-- Embeds `DIRECTION[Right]`. -/
def dirRight : Cube := ⟨1, -1, 0⟩
/-- Embeds `DIRECTION[UpLeft]`. -/
def dirUpLeft : Cube := ⟨0, 1, -1⟩
/-- Embeds `DIRECTION[UpRight]`. -/
def dirUpRight : Cube := ⟨1, 0, -1⟩
/-- Embeds `DIRECTION[DownLeft]`. -/
def dirDownLeft : Cube := ⟨-1, 0, 1⟩
/-- Embeds `DIRECTION[DownRight]`. -/
def dirDownRight : Cube := ⟨0, -1, 1⟩

/-- Embeds `coordinate.rs::Cube::neighbours`: the six adjacent cubes, clockwise
starting at UpRight. -/
def Cube.neighbours (c : Cube) : List Cube :=
  [c.add dirUpRight, c.add dirRight, c.add dirDownRight,
   c.add dirDownLeft, c.add dirLeft, c.add dirUpLeft]

/-- Embeds `coordinate.rs::Cube::three_neighbours`: Right, DownRight, DownLeft. -/
def Cube.threeNeighbours (c : Cube) : List Cube :=
  [c.add dirRight, c.add dirDownRight, c.add dirDownLeft]

/-- The error payload for a zero-sum violation
(`errors.rs::FailsZeroConstraint`). -/
structure FailsZeroConstraint where
  x : Int
  y : Int
  z : Int
deriving DecidableEq, Repr

/-- Embeds `coordinate.rs::Cube::construct`: rejects coordinates violating the
zero-sum constraint. -/
def Cube.construct (x y z : Int) : Except FailsZeroConstraint Cube :=
  if x + y + z ≠ 0 then .error ⟨x, y, z⟩ else .ok ⟨x, y, z⟩

/-- An axial coordinate (`coordinate.rs::Axial`). -/
structure Axial where
  column : Int
  row : Int
deriving DecidableEq, Repr

/-- Embeds `impl IntoCube for Axial`: `y` is the negated sum of column and row. -/
def Axial.cube (a : Axial) : Except FailsZeroConstraint Cube :=
  Cube.construct a.column (-(a.column + a.row)) a.row

/-- A territorial hold on a tile (`model.rs::Hold` / the `Holding` trait):
owner, dice count, and the mobile flag. -/
structure Hold where
  owner : Player
  dice : Nat
  mobile : Bool
deriving DecidableEq, Repr

/-- A grid of holds: the ordered hex vector of `grid.rs::Inner`.  Equality
is order-sensitive on this sequence, exactly as in the source (the coordinate
index is derived data and excluded from `PartialEq`/`Hash`). -/
abbrev GridH := List (Cube × Hold)

/-- Embeds `grid.rs::Inner::fetch` through the coordinate index.  The index is built
by inserting each hex in order, so for a duplicated coordinate the last
occurrence wins; this recursion reproduces that. -/
def fetchHold : GridH → Cube → Option Hold
  | [], _ => none
  | (c', h) :: rest, c =>
    match fetchHold rest c with
    | some r => some r
    | none => if c' = c then some h else none

/-- Embeds `grid.rs::Grid::fork_with`: a new grid with the function applied at every
tile, preserving layout and iteration order. -/
def forkWith (g : GridH) (f : Cube → Hold → Hold) : GridH :=
  g.map (fun p => (p.1, f p.1 p.2))

/-- Embeds `grid.rs::generate_new_row` unrolled: the row starting at `c`, each
subsequent cube one step Right of the previous. -/
def rowFrom (c : Cube) : Nat → List Cube
  | 0 => []
  | n + 1 => c :: rowFrom (c.add dirRight) n

/-- Rows 1 and up of `grid.rs::Rectangular::generate_with`: even-indexed rows
shift the previous row DownLeft, odd-indexed rows DownRight. -/
def rectRows (lastRow : List Cube) (rowIdx : Nat) : Nat → List Cube
  | 0 => []
  | n + 1 =>
    let nr := if rowIdx % 2 = 0
      then lastRow.map (fun c => c.add dirDownLeft)
      else lastRow.map (fun c => c.add dirDownRight)
    nr ++ rectRows nr (rowIdx + 1) n

/-- The coordinate sequence laid out by `grid.rs::Rectangular::generate_with`:
row 0 runs Right from the origin, later rows stagger DownLeft/DownRight. -/
def rectangularCoordinates (cols rows : Nat) : List Cube :=
  if cols = 0 ∨ rows = 0 then []
  else rowFrom ⟨0, 0, 0⟩ cols ++ rectRows (rowFrom ⟨0, 0, 0⟩ cols) 1 (rows - 1)

/-- The full state of the game (`model.rs::Board`). -/
structure Board where
  players : Players
  grid : GridH
  capturedDice : Nat
  moved : Nat
deriving DecidableEq, Repr

/-- A legal player action (`model.rs::Action`). -/
inductive Action where
  | attack (fromHex toHex : Cube) (attackerDice defenderDice : Nat)
  | pass
deriving DecidableEq, Repr

/-- Embeds `model.rs::Action::capturing`: the dice captured by the move. -/
def Action.capturing : Action → Nat
  | .attack _ _ _ dd => dd
  | .pass => 0

/-- What follows from an action (`model.rs::Consequence`). -/
inductive Consequence where
  | stalemate (b : Board)
  | continueGame (b : Board)
  | turnOver (b : Board)
  | gameOver (b : Board)
  | winner (b : Board)
deriving DecidableEq, Repr

/-- Embeds `model.rs::Consequence::board`. -/
def Consequence.board : Consequence → Board
  | .stalemate b => b
  | .continueGame b => b
  | .turnOver b => b
  | .gameOver b => b
  | .winner b => b

/-- An action paired with its consequence (`model.rs::Choice`).  The
interior-mutable score cell is modelled separately as an assignment map in
the scorer (see `Assign`), keeping the object graph immutable. -/
structure Choice where
  action : Action
  consequence : Consequence
deriving DecidableEq, Repr

/-- Move scoring (`model.rs::Score`): endstate idealness and distance.  The
`f64` destination is modelled as `ℚ`. -/
structure Score where
  destination : ℚ
  distance : Nat
deriving DecidableEq, Repr

/-- Embeds `model.rs::Score::increment_distance`. -/
def Score.incrementDistance (s : Score) : Score :=
  ⟨s.destination, s.distance + 1⟩

/-- The comparison of `impl PartialOrd for Score`: destination first; at
equal destinations a smaller distance is greater.  On `ℚ` destinations the
comparison is total (the `None` case of `f64::partial_cmp` needs a NaN). -/
def Score.cmp (a b : Score) : Ordering :=
  if a.destination < b.destination then .lt
  else if b.destination < a.destination then .gt
  else if a.distance > b.distance then .lt
  else if a.distance < b.distance then .gt
  else .eq

/-- The relation `a ≤ b` in the order of `impl PartialOrd for Score`. -/
def Score.le (a b : Score) : Prop :=
  Score.cmp a b = .lt ∨ Score.cmp a b = .eq

instance : DecidablePred fun p : Score × Score => Score.le p.1 p.2 := by
  intro p
  unfold Score.le
  infer_instance

/-- Modelled from the spec: the legal attacks launched from one tile.  The
final `rules.rs` is missing from the tree (the revision present has a
two-field `Attack` and no `mobile` flag, and cannot compile against
`model.rs`/`generate.rs`); spec §4.2 gives the final semantics: the tile must
be owned by the player, mobile, and hold more than one die, and it attacks
each of its six neighbours (clockwise order) present on the grid, owned by
another player, whose dice count is at most the attacker's. -/
def attacksFromTile (grid : GridH) (player : Player) (c : Cube) (hold : Hold) :
    List Action :=
  if hold.owner = player ∧ hold.mobile = true ∧ 1 < hold.dice then
    c.neighbours.filterMap (fun n =>
      match fetchHold grid n with
      | none => none
      | some d =>
        if d.owner ≠ player ∧ d.dice ≤ hold.dice
          then some (Action.attack c n hold.dice d.dice)
          else none)
  else []

/-- Modelled from the spec: `rules.rs::all_legal_attacks_from`, final
semantics (spec §4.2).  Tiles are visited in grid iteration order and each
tile contributes its legal attacks in clockwise neighbour order. -/
def all_legal_attacks_from (grid : GridH) (player : Player) : List Action :=
  grid.foldl (fun moves t => moves ++ attacksFromTile grid player t.1 t.2) []

/-- Embeds `rules.rs::winner`: every tile is owned by the current player. -/
def winner (b : Board) : Bool :=
  b.grid.all (fun t => decide (t.2.owner = b.players.currentPlayer))

/-- Embeds `rules.rs::loser`: no tile is owned by the current player. -/
def loser (b : Board) : Bool :=
  b.grid.all (fun t => decide (t.2.owner ≠ b.players.currentPlayer))

/-- Modelled from the spec: one edge probe of the stalemate scan (spec
§4.2).  `false` marks an attackable edge: the neighbour tile exists, has a
different owner, and either side holds more than one die. -/
def stalemateEdge (g : GridH) (h : Hold) (n : Cube) : Bool :=
  match fetchHold g n with
  | none => true
  | some other =>
    if other.owner ≠ h.owner ∧ (1 < other.dice ∨ 1 < h.dice)
      then false else true

/-- Modelled from the spec: `rules.rs::stalemate`, final semantics (spec
§4.2).  Grids of fewer than two tiles are never in stalemate; otherwise scan
every tile's three half-neighbours and report a stalemate exactly when no
adjacent pair has different owners with either side holding more than one
die. -/
def stalemate (b : Board) : Bool :=
  if b.grid.length < 2 then false
  else
    b.grid.all (fun t =>
      t.1.threeNeighbours.all (stalemateEdge b.grid t.2))

/-- Modelled from the spec: the reinforcement walk (spec §4.2, §4.5).
Distribute the budget among the player's tiles in grid iteration order, each
tile capped at five dice, overflow silently dropped; the mobile flag of the
player's tiles is restored on reinforcement. -/
def reinforceGo (player : Player) : GridH → Nat → GridH
  | [], _ => []
  | (c, h) :: rest, budget =>
    if h.owner = player then
      let gain := min budget (5 - h.dice)
      (c, ⟨h.owner, h.dice + gain, true⟩) :: reinforceGo player rest (budget - gain)
    else
      (c, h) :: reinforceGo player rest budget

/-- Modelled from the spec: `rules.rs::reinforce` (spec §4.2). -/
def reinforce (grid : GridH) (player : Player) (budget : Nat) : GridH :=
  reinforceGo player grid budget

/-- Modelled from the spec: `rules.rs::attacking_move`, final semantics
(spec §4.2).  One die stays on the source tile, the rest minus one land on
the captured tile; mobile flags are preserved on both tiles.  The source
panics on an invalid `from` coordinate; that unreachable case leaves the
grid unchanged here. -/
def attacking_move (grid : GridH) (fromHex toHex : Cube) : GridH :=
  match fetchHold grid fromHex with
  | none => grid
  | some fh =>
    forkWith grid (fun c h =>
      if c = fromHex then ⟨fh.owner, 1, h.mobile⟩
      else if c = toHex then ⟨fh.owner, fh.dice - 1, h.mobile⟩
      else h)

/-- Embeds `rules.rs::grid_from_move`: a pass leaves the grid unchanged, an attack
applies `attacking_move`. -/
def grid_from_move (grid : GridH) (movement : Action) : GridH :=
  match movement with
  | .pass => grid
  | .attack f t _ _ => attacking_move grid f t

/-- Modelled from the spec: the turn-over board (spec §4.2): reinforce the
current player with `captured_dice - 1` (saturating at zero), advance the
roster, reset both counters. -/
def turnOverBoard (b : Board) : Board :=
  ⟨b.players.next,
   reinforce b.grid b.players.currentPlayer (b.capturedDice - 1), 0, 0⟩

/-- Modelled from the spec: `rules.rs::choices_from_board_only_pass_at_end`,
final semantics (spec §4.2).  With no legal attack: Winner, GameOver,
Stalemate or a reinforcing TurnOver, in that order.  With attacks but the
move limit reached: a single TurnOver.  Otherwise one Continue choice per
attack, accumulating captured dice and the move counter. -/
def choices_from_board_only_pass_at_end (b : Board) (moveLimit : Nat) :
    List Choice :=
  let attacks := all_legal_attacks_from b.grid b.players.currentPlayer
  if attacks.isEmpty then
    if winner b then [⟨.pass, .winner b⟩]
    else if loser b then [⟨.pass, .gameOver ⟨b.players.removeCurrent, b.grid, 0, 0⟩⟩]
    else if stalemate b then [⟨.pass, .stalemate b⟩]
    else [⟨.pass, .turnOver (turnOverBoard b)⟩]
  else if b.moved ≥ moveLimit then
    [⟨.pass, .turnOver (turnOverBoard b)⟩]
  else
    attacks.map (fun a =>
      ⟨a, .continueGame
        ⟨b.players, grid_from_move b.grid a,
         b.capturedDice + a.capturing, b.moved + 1⟩⟩)

/-- The state map of the expander (`HashMap<Board, Vec<Choice>>` in
`generate.rs`), as an association list; keys are unique because insertion is
guarded by a `contains_key` check. -/
abbrev States := List (Board × List Choice)

/-- Key membership in the state map. -/
def containsKeyS (s : States) (b : Board) : Bool :=
  s.any (fun p => decide (p.1 = b))

/-- Key lookup in the state map. -/
def lookupS : States → Board → Option (List Choice)
  | [], _ => none
  | (b', cs) :: rest, b => if b' = b then some cs else lookupS rest b

/-- The inner `for board in layer` loop shared by every expander in
`generate.rs`: boards already stored are skipped, fresh boards contribute
their choices' consequence boards to the next layer and are inserted. -/
def processLayer (moveLimit : Nat) :
    States → List Board → List Board → States × List Board
  | states, next, [] => (states, next)
  | states, next, b :: rest =>
    if containsKeyS states b then processLayer moveLimit states next rest
    else
      let cs := choices_from_board_only_pass_at_end b moveLimit
      processLayer moveLimit (states ++ [(b, cs)])
        (next ++ cs.map (fun ch => ch.consequence.board)) rest

/-- Embeds `generate.rs::breadth_first_calc_consequences`, the unbounded layer loop.
The loop has no horizon; the fuel parameter stands in for the unbounded Rust
iteration, and `none` means the fuel ran out before the frontier emptied. -/
def bfsAux (moveLimit : Nat) : Nat → States → List Board → Option States
  | _, states, [] => some states
  | 0, _, _ => none
  | fuel + 1, states, layer =>
    let (states', next) := processLayer moveLimit states [] layer
    bfsAux moveLimit fuel states' next

/-- Embeds `generate.rs::breadth_first_calc_consequences` run from a start board
(layer statistics, which are diagnostic only, are dropped). -/
def breadth_first_calc_consequences (start : Board) (moveLimit fuel : Nat) :
    Option States :=
  bfsAux moveLimit fuel [] [start]

/-- Embeds `generate.rs::bounded_breadth_first_calc_consequences`: at most `horizon`
layers, stopping early on an empty frontier. -/
def boundedBfsAux (moveLimit : Nat) : Nat → States → List Board → States
  | 0, states, _ => states
  | h + 1, states, layer =>
    if layer.isEmpty then states
    else
      let (states', next) := processLayer moveLimit states [] layer
      boundedBfsAux moveLimit h states' next

/-- The game tree (`model.rs::Tree`). -/
structure Tree where
  root : Board
  states : States
deriving DecidableEq, Repr

/-- Embeds `model.rs::Tree::fetch_choices`. -/
def Tree.fetch_choices (t : Tree) (b : Board) : Option (List Choice) :=
  lookupS t.states b

/-- Embeds `generate.rs::start_tree_horizon_limited`. -/
def start_tree_horizon_limited (root : Board) (horizon moveLimit : Nat) : Tree :=
  ⟨root, boundedBfsAux moveLimit horizon [] [root]⟩

/-- Every stored choice vector was produced by the rules engine for its key
board with the given move limit — the shape of every tree the expanders
build. -/
def RulesStates (moveLimit : Nat) (s : States) : Prop :=
  ∀ b cs, lookupS s b = some cs →
    cs = choices_from_board_only_pass_at_end b moveLimit

/-- The per-player score table of `score.rs` (`HashMap<Player, Score>`), as
an association list. -/
abbrev SubScores := List (Player × Score)

/-- Lookup in a per-player score table. -/
def lookupP : SubScores → Player → Option Score
  | [], _ => none
  | (p', s) :: rest, p => if p' = p then some s else lookupP rest p

/-- Embedding of `HashMap::insert`: replace an existing entry or append a fresh one. -/
def insertP (m : SubScores) (p : Player) (s : Score) : SubScores :=
  if (lookupP m p).isSome
    then m.map (fun q => if q.1 = p then (p, s) else q)
    else m ++ [(p, s)]

/-- The number of tiles owned by a player. -/
def countOwned (g : GridH) (p : Player) : Nat :=
  (g.filter (fun t => decide (t.2.owner = p))).length

/-- The owned fraction assigned by `score.rs::score_board` to one player. -/
def scoreBoardFrac (b : Board) (p : Player) : ℚ :=
  (countOwned b.grid p : ℚ) / (b.grid.length : ℚ)

/-- Embeds `score.rs::score_board`: the per-player fraction of owned tiles at
distance zero, one entry per player holding at least one tile. -/
def score_board (b : Board) : SubScores :=
  ((b.grid.map (fun t => t.2.owner)).dedup).map
    (fun p => (p, ⟨scoreBoardFrac b p, 0⟩))

/-- The write-once score cells of the `Choice` graph, keyed by the owning
board and the index of the choice in that board's choice vector.  A prepend
models `Cell::set`; lookup sees the most recent write. -/
abbrev Assign := List ((Board × Nat) × Score)

/-- Read a choice's score cell. -/
def lookupA : Assign → Board → Nat → Option Score
  | [], _, _ => none
  | ((k, i'), s) :: rest, b, i =>
    if k = b ∧ i' = i then some s else lookupA rest b i

/-- Write a choice's score cell. -/
def setA (m : Assign) (b : Board) (i : Nat) (s : Score) : Assign :=
  ((b, i), s) :: m

/-- The back-propagation merge at the end of each loop iteration in
`score.rs::score`: increment each sub-score's distance and keep it only if
strictly greater than the stored one under the custom order (ties keep the
existing entry). -/
def mergeScores (scores subs : SubScores) : SubScores :=
  subs.foldl (fun acc ps =>
    let np := ps.2.incrementDistance
    match lookupP acc ps.1 with
    | some cur => if Score.cmp np cur = .gt then insertP acc ps.1 np else acc
    | none => acc ++ [(ps.1, np)]) scores

/-- The choice loop of `score.rs::score`.  `recCall` is the recursive call
into sub-boards; choices already scored are skipped (the cycle guard); a
Stalemate or Winner consequence scores the choice and returns its sub-score
table immediately, the other consequences recurse, score the choice, merge
and continue.  The diagnostic visit counter is dropped. -/
def scoreChoices (recCall : Board → Assign → Assign × SubScores)
    (player : Player) (b : Board) :
    List (Nat × Choice) → Assign → SubScores → Assign × SubScores
  | [], assign, scores => (assign, scores)
  | (i, ch) :: rest, assign, scores =>
    if (lookupA assign b i).isSome then
      scoreChoices recCall player b rest assign scores
    else
      match ch.consequence with
      | .stalemate bb =>
        (setA assign b i ((lookupP (score_board bb) player).getD ⟨0, 0⟩),
         score_board bb)
      | .winner _ =>
        (setA assign b i ⟨1, 0⟩, [(player, ⟨1, 0⟩)])
      | .gameOver bb =>
        scoreChoices recCall player b rest
          (setA (recCall bb assign).1 b i ⟨0, 0⟩)
          (mergeScores scores (insertP (recCall bb assign).2 player ⟨0, 0⟩))
      | .continueGame bb =>
        match lookupP (recCall bb assign).2 player with
        | some s =>
          scoreChoices recCall player b rest
            (setA (recCall bb assign).1 b i s.incrementDistance)
            (mergeScores scores (recCall bb assign).2)
        | none =>
          scoreChoices recCall player b rest
            (setA (recCall bb assign).1 b i ⟨0, 0⟩)
            (mergeScores scores ((recCall bb assign).2 ++ [(player, ⟨0, 0⟩)]))
      | .turnOver bb =>
        match lookupP (recCall bb assign).2 player with
        | some s =>
          scoreChoices recCall player b rest
            (setA (recCall bb assign).1 b i s.incrementDistance)
            (mergeScores scores (recCall bb assign).2)
        | none =>
          scoreChoices recCall player b rest
            (setA (recCall bb assign).1 b i ⟨0, 0⟩)
            (mergeScores scores ((recCall bb assign).2 ++ [(player, ⟨0, 0⟩)]))

/-- Embeds `score.rs::score`: the depth-first scorer.  A board absent from the tree
falls back to `score_board` (the truncated-tree case); the fuel models the
unbounded Rust recursion and exhaustion behaves like that fallback. -/
def scoreGo (tree : Tree) : Nat → Board → Assign → Assign × SubScores
  | 0, board, assign => (assign, score_board board)
  | fuel + 1, board, assign =>
    match tree.fetch_choices board with
    | none => (assign, score_board board)
    | some choices =>
      scoreChoices (scoreGo tree fuel) board.players.currentPlayer board
        choices.enum assign []

/-- Embeds `score.rs::score_tree`, returning the score-cell assignment. -/
def score_tree (tree : Tree) (fuel : Nat) : Assign :=
  (scoreGo tree fuel tree.root []).1

/-- The record of the last combat (`session.rs::LastAttack`). -/
structure LastAttack where
  attackerDice : Nat
  attackerRolled : Nat
  defenderDice : Nat
  defenderRolled : Nat
deriving DecidableEq, Repr

/-- Embeds `session.rs::LastAttack::default`: the first-turn sentinel. -/
def LastAttack.start : LastAttack := ⟨0, 0, 0, 0⟩

/-- Game progression (`session.rs::Progression`). -/
inductive Progression where
  | playOn (last : LastAttack)
  | gameOverWinner (p : Player)
  | gameOverStalemate (ps : List Player)
deriving DecidableEq, Repr

/-- The session state exposed to the UI (`session.rs::State`). -/
structure State where
  game : Progression
  traversal : List (Board × Choice)
  board : Board
  choices : List Choice
deriving DecidableEq, Repr

/-- Result of the forced-move collapse loop.  `miss depth` is the
`Err(depth)` tree-too-shallow signal; `panicked` is the `unreachable!` hit on
a lone Pass choice with a Continue consequence; `fuelOut` marks exhaustion of
the fuel standing in for the unbounded Rust loop. -/
inductive SFBResult where
  | ok (s : State)
  | miss (depth : Nat)
  | panicked
  | fuelOut
deriving DecidableEq, Repr

/-- Embeds `session.rs::state_from_board`: skip over single-Pass states, appending
them to the traversal; a lone Attack or a multi-choice list is presented; a
lone Pass into Winner or Stalemate is terminal. -/
def state_from_board (tree : Tree) :
    Nat → Board → List (Board × Choice) → Nat → LastAttack → SFBResult
  | 0, _, _, _, _ => .fuelOut
  | fuel + 1, current, traversal, depth, outcome =>
    match tree.fetch_choices current with
    | none => .miss depth
    | some choices =>
      match choices with
      | [ch] =>
        match ch.action with
        | .attack _ _ _ _ =>
          .ok ⟨.playOn outcome, traversal, current, choices⟩
        | .pass =>
          match ch.consequence with
          | .stalemate nb =>
            .ok ⟨.gameOverStalemate nb.players.playingPlayers, traversal, nb, choices⟩
          | .winner nb =>
            .ok ⟨.gameOverWinner nb.players.currentPlayer, traversal, nb, choices⟩
          | .gameOver nb =>
            state_from_board tree fuel nb (traversal ++ [(current, ch)])
              (depth + 1) outcome
          | .turnOver nb =>
            state_from_board tree fuel nb (traversal ++ [(current, ch)])
              (depth + 1) outcome
          | .continueGame _ => .panicked
      | _ => .ok ⟨.playOn outcome, traversal, current, choices⟩

/-- Result of the expand-and-retry loop around `state_from_board` in
`session.rs` (`Session::new` / `Session::advance`). -/
inductive LoopResult where
  | ok (t : Tree) (st : State)
  | panicked
  | fuelOut
deriving DecidableEq, Repr

/-- The expand-and-retry loop of `session.rs::Session::advance` (and
`Session::new`): on a tree miss, rebuild the tree from the board with the
reported depth as horizon and retry. -/
def sessionLoop (moveLimit : Nat) :
    Nat → Tree → Board → LastAttack → LoopResult
  | 0, _, _, _ => .fuelOut
  | fuel + 1, tree, board, outcome =>
    match state_from_board tree (fuel + 1) board [] 1 outcome with
    | .ok st => .ok tree st
    | .panicked => .panicked
    | .fuelOut => .fuelOut
    | .miss depth =>
      sessionLoop moveLimit fuel
        (start_tree_horizon_limited board depth moveLimit) board outcome

/-- A game in progress (`session.rs::Session`).  The RNG lives outside the
model: die-roll sums enter `advance` as oracle arguments. -/
structure Session where
  turns : List State
  tree : Tree
  moveLimit : Nat
deriving DecidableEq, Repr

/-- Result of `session.rs::Session::advance`.  `err` carries the unchanged
session together with the message of the recoverable error; `panicked`
covers the `unreachable!` on a Pass action and the unwrap on an empty turn
list; `fuelOut` marks exhaustion of the loop fuel. -/
inductive AdvanceResult where
  | ok (s : Session) (st : State)
  | err (s : Session) (msg : String)
  | panicked
  | fuelOut
deriving DecidableEq, Repr

/-- Embeds `session.rs::Session::advance`: fetch the indexed choice (out of bounds
is the recoverable error, reported before any mutation), roll both sides
(the summed rolls are the `attackerRoll`/`defenderRoll` oracles), advance to
the consequence board on an attacker win or freeze the attacking tile and
bump the move counter on a loss, then run the forced-move collapse,
expanding the tree on demand, and push the resulting state. -/
def advance (s : Session) (index attackerRoll defenderRoll fuel : Nat) :
    AdvanceResult :=
  match s.turns.getLast? with
  | none => .panicked
  | some cur =>
    match cur.choices.get? index with
    | none => .err s "Index out of bounds."
    | some choice =>
      match choice.action with
      | .pass => .panicked
      | .attack ac _ ad dd =>
        let outcome : LastAttack := ⟨ad, attackerRoll, dd, defenderRoll⟩
        let nextBoard :=
          if attackerRoll > defenderRoll then choice.consequence.board
          else
            ⟨cur.board.players,
             forkWith cur.board.grid (fun c h =>
               if c = ac then ⟨h.owner, h.dice, false⟩ else h),
             cur.board.capturedDice, cur.board.moved + 1⟩
        match sessionLoop s.moveLimit fuel s.tree nextBoard outcome with
        | .ok tree' st => .ok ⟨s.turns ++ [st], tree', s.moveLimit⟩ st
        | .panicked => .panicked
        | .fuelOut => .fuelOut

/-- Player A of the canned fixtures. -/
def pA : Player := ⟨1, 'A'⟩

/-- Player B of the canned fixtures. -/
def pB : Player := ⟨2, 'B'⟩

/-- Cube of axial (0,0). -/
def c00 : Cube := ⟨0, 0, 0⟩

/-- Cube of axial (1,0). -/
def c10 : Cube := ⟨1, -1, 0⟩

/-- Cube of axial (0,1). -/
def c01 : Cube := ⟨0, -1, 1⟩

/-- Cube of axial (1,1). -/
def c11 : Cube := ⟨1, -2, 1⟩

/-- The 2×2 board of `game.rs::canned_2x2_start01`: player A holds one tile
with two dice and has no legal attack. -/
def b2x2 : Board :=
  ⟨Players.new 2,
   [(c00, ⟨pA, 2, true⟩), (c10, ⟨pB, 3, true⟩),
    (c01, ⟨pB, 3, true⟩), (c11, ⟨pB, 5, true⟩)], 0, 0⟩

/-- The 2×2 board of `game.rs::canned_2x2_start02`: player A has exactly one
legal attack, onto the single die at axial (1,0). -/
def b2x2atk : Board :=
  ⟨Players.new 2,
   [(c00, ⟨pA, 2, true⟩), (c10, ⟨pB, 1, true⟩),
    (c01, ⟨pB, 3, true⟩), (c11, ⟨pB, 5, true⟩)], 0, 0⟩

/-- A 1×1 board wholly owned by player A (`game.rs::canned_1x1_start`). -/
def b1x1 : Board := ⟨Players.new 2, [(c00, ⟨pA, 2, true⟩)], 0, 0⟩

/-- The 2×1 board of `game.rs::canned_2x1_start01`: A with two dice next to
B with three. -/
def b2x1 : Board :=
  ⟨Players.new 2, [(c00, ⟨pA, 2, true⟩), (c10, ⟨pB, 3, true⟩)], 0, 0⟩

/-- A tree holding only the 1×1 winner board and its single Pass choice. -/
def treeW : Tree :=
  ⟨b1x1, [(b1x1, [⟨.pass, .winner b1x1⟩])]⟩

/-- The presented state of the one-attack 2×2 board. -/
def stW : State :=
  ⟨.playOn LastAttack.start, [], b2x2atk,
   [⟨.attack c00 c10 2 1,
     .continueGame ⟨b2x2atk.players,
       grid_from_move b2x2atk.grid (.attack c00 c10 2 1), 1, 1⟩⟩]⟩

/-- A one-turn session over the one-attack 2×2 board, used to exercise
`advance`. -/
def sessW : Session :=
  ⟨[stW], start_tree_horizon_limited b2x2atk 1 100, 100⟩

/-- The fully expanded state map of the 2×1 fixture board. -/
def bfsW : States :=
  (breadth_first_calc_consequences b2x1 100 10).getD []

/-- Reachability through the stored choices of a state map: the reflexive
transitive closure of "some stored choice of `b` has consequence board
`c`". -/
inductive Reaches (s : States) : Board → Board → Prop
  | refl (b : Board) : Reaches s b b
  | step {a b c : Board} (cs : List Choice) (ch : Choice) :
      Reaches s a b → lookupS s b = some cs → ch ∈ cs →
      ch.consequence.board = c → Reaches s a c

/-- The property the scorer establishes for freshly written score cells: the
cell belongs to a stored choice of its board, a Winner choice holds the
perfect score, and a Stalemate choice holds the acting player's owned
fraction at distance zero. -/
def LeafSpec (tree : Tree) (b : Board) (i : Nat) (s : Score) : Prop :=
  ∃ cs ch, tree.fetch_choices b = some cs ∧ cs[i]? = some ch ∧
    (∀ bb, ch.consequence = .winner bb → s = ⟨1, 0⟩) ∧
    (∀ bb, ch.consequence = .stalemate bb →
      s = ⟨scoreBoardFrac bb b.players.currentPlayer, 0⟩)

/- ------------------------------------------------------------------ -/
/- Theorems                                                           -/
/- ------------------------------------------------------------------ -/

/-- The comparison `Score.cmp` returns `lt` exactly on a smaller destination or, at equal
destinations, a larger distance. -/
theorem score_cmp_eq_lt_iff (a b : Score) :
    Score.cmp a b = .lt ↔
      (a.destination < b.destination ∨
       (a.destination = b.destination ∧ b.distance < a.distance)) := by
  unfold Score.cmp
  rcases lt_trichotomy a.destination b.destination with h | h | h <;>
    rcases Nat.lt_trichotomy a.distance b.distance with h' | h' | h' <;>
    first
      | (simp [h, h', lt_irrefl]; all_goals omega)
      | (simp [h, h', ne_of_lt h, ne_of_gt h, lt_asymm h, lt_irrefl, le_of_lt h]
         all_goals
           first
             | omega
             | (intro hx; exact absurd hx (ne_of_lt h))
             | (intro hx; exact absurd hx (ne_of_gt h))
             | exact ⟨le_of_lt h, ne_of_lt h⟩
             | exact ⟨le_of_lt h, ne_of_gt h⟩)

/-- The comparison `Score.cmp` returns `eq` exactly on equal components. -/
theorem score_cmp_eq_eq_iff (a b : Score) :
    Score.cmp a b = .eq ↔
      (a.destination = b.destination ∧ a.distance = b.distance) := by
  unfold Score.cmp
  rcases lt_trichotomy a.destination b.destination with h | h | h <;>
    rcases Nat.lt_trichotomy a.distance b.distance with h' | h' | h' <;>
    first
      | (simp [h, h', lt_irrefl]; all_goals omega)
      | (simp [h, h', ne_of_lt h, ne_of_gt h, lt_asymm h, lt_irrefl, le_of_lt h]
         all_goals
           first
             | omega
             | (intro hx; exact absurd hx (ne_of_lt h))
             | (intro hx; exact absurd hx (ne_of_gt h))
             | exact ⟨le_of_lt h, ne_of_lt h⟩
             | exact ⟨le_of_lt h, ne_of_gt h⟩)

/-- The comparison `Score.cmp` returns `gt` exactly on a larger destination or, at equal
destinations, a smaller distance. -/
theorem score_cmp_eq_gt_iff (a b : Score) :
    Score.cmp a b = .gt ↔
      (b.destination < a.destination ∨
       (a.destination = b.destination ∧ a.distance < b.distance)) := by
  unfold Score.cmp
  rcases lt_trichotomy a.destination b.destination with h | h | h <;>
    rcases Nat.lt_trichotomy a.distance b.distance with h' | h' | h' <;>
    first
      | (simp [h, h', lt_irrefl]; all_goals omega)
      | (simp [h, h', ne_of_lt h, ne_of_gt h, lt_asymm h, lt_irrefl, le_of_lt h]
         all_goals
           first
             | omega
             | (intro hx; exact absurd hx (ne_of_lt h))
             | (intro hx; exact absurd hx (ne_of_gt h))
             | exact ⟨le_of_lt h, ne_of_lt h⟩
             | exact ⟨le_of_lt h, ne_of_gt h⟩)

/-- The order underlying `Score.le`, unfolded. -/
theorem score_le_iff (a b : Score) :
    Score.le a b ↔
      (a.destination < b.destination ∨
       (a.destination = b.destination ∧ b.distance ≤ a.distance)) := by
  unfold Score.le
  rw [score_cmp_eq_lt_iff, score_cmp_eq_eq_iff]
  constructor
  · rintro ((h | ⟨h1, h2⟩) | ⟨h1, h2⟩)
    · exact Or.inl h
    · exact Or.inr ⟨h1, le_of_lt h2⟩
    · exact Or.inr ⟨h1, le_of_eq h2.symm⟩
  · rintro (h | ⟨h1, h2⟩)
    · exact Or.inl (Or.inl h)
    · rcases lt_or_eq_of_le h2 with h | h
      · exact Or.inl (Or.inr ⟨h1, h⟩)
      · exact Or.inr ⟨h1, h.symm⟩

/-- Claim C7: the ordering on `Score` is a total order on pairs
`(destination, distance)` with destination in `[0, 1]` and distance a
natural number: it compares destination first, and at equal destination a
smaller distance compares as greater; restricted to that domain it is
reflexive, antisymmetric and transitive. -/
theorem claim_C7_score_total_order (a b c : Score)
    (ha : 0 ≤ a.destination ∧ a.destination ≤ 1)
    (hb : 0 ≤ b.destination ∧ b.destination ≤ 1)
    (hc : 0 ≤ c.destination ∧ c.destination ≤ 1) :
    Score.le a a ∧
    (Score.le a b → Score.le b a → a = b) ∧
    (Score.le a b → Score.le b c → Score.le a c) ∧
    (Score.le a b ∨ Score.le b a) ∧
    (a.destination < b.destination → Score.cmp a b = .lt) ∧
    (a.destination = b.destination → a.distance < b.distance →
      Score.cmp a b = .gt) := by
  refine ⟨?_, ?_, ?_, ?_, ?_, ?_⟩
  · rw [score_le_iff]
    exact Or.inr ⟨rfl, le_rfl⟩
  · rw [score_le_iff, score_le_iff]
    rintro (h1 | ⟨h1, h1'⟩) (h2 | ⟨h2, h2'⟩)
    · exact absurd h2 (lt_asymm h1)
    · exact absurd h1 (by rw [h2]; exact lt_irrefl _)
    · exact absurd h2 (by rw [h1]; exact lt_irrefl _)
    · obtain ⟨ad, adist⟩ := a
      obtain ⟨bd, bdist⟩ := b
      simp_all
      omega
  · rw [score_le_iff, score_le_iff, score_le_iff]
    rintro (h1 | ⟨h1, h1'⟩) (h2 | ⟨h2, h2'⟩)
    · exact Or.inl (lt_trans h1 h2)
    · exact Or.inl (h2 ▸ h1)
    · exact Or.inl (h1 ▸ h2)
    · exact Or.inr ⟨h1.trans h2, le_trans h2' h1'⟩
  · rw [score_le_iff, score_le_iff]
    rcases lt_trichotomy a.destination b.destination with h | h | h
    · exact Or.inl (Or.inl h)
    · rcases le_total b.distance a.distance with hd | hd
      · exact Or.inl (Or.inr ⟨h, hd⟩)
      · exact Or.inr (Or.inr ⟨h.symm, hd⟩)
    · exact Or.inr (Or.inl h)
  · intro h
    exact (score_cmp_eq_lt_iff a b).mpr (Or.inl h)
  · intro h1 h2
    exact (score_cmp_eq_gt_iff a b).mpr (Or.inr ⟨h1, h2⟩)

/-- Witness for C7 at concrete scores. -/
theorem claim_C7_witness :
    (0 ≤ (⟨1/2, 3⟩ : Score).destination ∧ (⟨1/2, 3⟩ : Score).destination ≤ 1) ∧
    Score.cmp ⟨1/2, 3⟩ ⟨1/2, 5⟩ = .gt :=
  ⟨⟨by norm_num, by norm_num⟩,
   (claim_C7_score_total_order ⟨1/2, 3⟩ ⟨1/2, 5⟩ ⟨0, 0⟩
      ⟨by norm_num, by norm_num⟩ ⟨by norm_num, by norm_num⟩
      ⟨le_rfl, by norm_num⟩).2.2.2.2.2 rfl (by norm_num)⟩

/-- Every cube in a row generated rightwards from a zero-sum cube sums to
zero. -/
theorem rowFrom_zero_sum (k : Nat) :
    ∀ c : Cube, c.x + c.y + c.z = 0 →
      ∀ n ∈ rowFrom c k, n.x + n.y + n.z = 0 := by
  induction k with
  | zero => intro c _ n hn; simp [rowFrom] at hn
  | succ k ih =>
    intro c hc n hn
    simp only [rowFrom, List.mem_cons] at hn
    rcases hn with rfl | hn
    · exact hc
    · exact ih (c.add dirRight) (by simp [Cube.add, dirRight]; omega) n hn

/-- The staggered rows preserve the zero-sum invariant. -/
theorem rectRows_zero_sum (k : Nat) :
    ∀ lastRow rowIdx, (∀ m ∈ lastRow, m.x + m.y + m.z = 0) →
      ∀ n ∈ rectRows lastRow rowIdx k, n.x + n.y + n.z = 0 := by
  induction k with
  | zero => intro lastRow rowIdx _ n hn; simp [rectRows] at hn
  | succ k ih =>
    intro lastRow rowIdx hlast n hn
    simp only [rectRows, List.mem_append] at hn
    have hnr : ∀ m ∈ (if rowIdx % 2 = 0
        then lastRow.map (fun c => c.add dirDownLeft)
        else lastRow.map (fun c => c.add dirDownRight)),
        m.x + m.y + m.z = 0 := by
      intro m hm
      split_ifs at hm <;>
        · simp only [List.mem_map] at hm
          obtain ⟨c, hcm, rfl⟩ := hm
          have := hlast c hcm
          simp [Cube.add, dirDownLeft, dirDownRight]
          omega
    rcases hn with hn | hn
    · exact hnr n hn
    · exact ih _ (rowIdx + 1) hnr n hn

/-- Claim C8: every `Cube` obtainable from the public API satisfies
`x + y + z = 0`: `Cube::construct` errors exactly when the sum is nonzero,
axial conversion always succeeds with the cube `(col, -(col+row), row)`,
and neighbour queries and the rectangular grid layout preserve the
invariant. -/
theorem claim_C8_cube_zero_sum :
    (∀ x y z : Int, (∃ e, Cube.construct x y z = .error e) ↔ x + y + z ≠ 0) ∧
    (∀ col row : Int,
      Axial.cube ⟨col, row⟩ = .ok ⟨col, -(col + row), row⟩ ∧
      col + -(col + row) + row = 0) ∧
    (∀ c : Cube, c.x + c.y + c.z = 0 →
      ∀ n ∈ c.neighbours, n.x + n.y + n.z = 0) ∧
    (∀ c : Cube, c.x + c.y + c.z = 0 →
      ∀ n ∈ c.threeNeighbours, n.x + n.y + n.z = 0) ∧
    (∀ cols rows : Nat,
      ∀ n ∈ rectangularCoordinates cols rows, n.x + n.y + n.z = 0) := by
  refine ⟨?_, ?_, ?_, ?_, ?_⟩
  · intro x y z
    constructor
    · rintro ⟨e, he⟩ h
      simp [Cube.construct, h] at he
    · intro h
      exact ⟨⟨x, y, z⟩, by simp [Cube.construct, h]⟩
  · intro col row
    constructor
    · unfold Axial.cube Cube.construct
      rw [if_neg (by omega : ¬(col + -(col + row) + row ≠ 0))]
    · omega
  · intro c hc n hn
    simp only [Cube.neighbours, List.mem_cons, List.not_mem_nil, or_false] at hn
    rcases hn with rfl | rfl | rfl | rfl | rfl | rfl <;>
      · simp [Cube.add, dirUpRight, dirRight, dirDownRight,
              dirDownLeft, dirLeft, dirUpLeft]
        omega
  · intro c hc n hn
    simp only [Cube.threeNeighbours, List.mem_cons, List.not_mem_nil,
      or_false] at hn
    rcases hn with rfl | rfl | rfl <;>
      · simp [Cube.add, dirRight, dirDownRight, dirDownLeft]
        omega
  · intro cols rows n hn
    unfold rectangularCoordinates at hn
    split_ifs at hn
    · simp at hn
    · simp only [List.mem_append] at hn
      have hrow := rowFrom_zero_sum cols ⟨0, 0, 0⟩ (by simp)
      rcases hn with hn | hn
      · exact hrow n hn
      · exact rectRows_zero_sum (rows - 1) _ 1 hrow n hn

/-- Witness for C8 at concrete coordinates. -/
theorem claim_C8_witness :
    ((1 : Int) + 1 + 1 ≠ 0 → ∃ e, Cube.construct 1 1 1 = .error e) ∧
    (c00.x + c00.y + c00.z = 0 ∧ ∀ n ∈ c00.neighbours, n.x + n.y + n.z = 0) :=
  ⟨fun h => (claim_C8_cube_zero_sum.1 1 1 1).mpr h,
   ⟨by decide, claim_C8_cube_zero_sum.2.2.1 c00 (by decide)⟩⟩

/-- Membership in the tile fold of `all_legal_attacks_from`. -/
theorem mem_attack_foldl (grid : GridH) (player : Player) (a : Action) :
    ∀ (l : List (Cube × Hold)) (init : List Action),
      (a ∈ l.foldl (fun moves t => moves ++ attacksFromTile grid player t.1 t.2) init ↔
       a ∈ init ∨ ∃ t ∈ l, a ∈ attacksFromTile grid player t.1 t.2) := by
  intro l
  induction l with
  | nil => simp
  | cons x xs ih =>
    intro init
    simp only [List.foldl_cons]
    rw [ih]
    simp only [List.mem_append, List.mem_cons]
    constructor
    · rintro ((h | h) | ⟨t, ht, hmem⟩)
      · exact Or.inl h
      · exact Or.inr ⟨x, Or.inl rfl, h⟩
      · exact Or.inr ⟨t, Or.inr ht, hmem⟩
    · rintro (h | ⟨t, (rfl | ht), hmem⟩)
      · exact Or.inl (Or.inl h)
      · exact Or.inl (Or.inr hmem)
      · exact Or.inr ⟨t, ht, hmem⟩

/-- The list `all_legal_attacks_from` enumerates exactly the per-tile attacks of the
grid's tiles. -/
theorem mem_all_legal_attacks_from (grid : GridH) (player : Player) (a : Action) :
    a ∈ all_legal_attacks_from grid player ↔
      ∃ t ∈ grid, a ∈ attacksFromTile grid player t.1 t.2 := by
  unfold all_legal_attacks_from
  rw [mem_attack_foldl]
  simp

/-- A successful `fetch` returns a stored pair. -/
theorem fetchHold_mem_of_eq_some :
    ∀ {g : GridH} {c : Cube} {h : Hold}, fetchHold g c = some h → (c, h) ∈ g := by
  intro g
  induction g with
  | nil => intro c h hs; simp [fetchHold] at hs
  | cons p rest ih =>
    intro c h hs
    obtain ⟨c', h'⟩ := p
    simp only [fetchHold] at hs
    rcases hr : fetchHold rest c with _ | r
    · rw [hr] at hs
      by_cases hcc : c' = c
      · rw [if_pos hcc] at hs
        have h1 : h' = h := Option.some.inj hs
        subst h1; subst hcc
        exact List.mem_cons_self _ _
      · rw [if_neg hcc] at hs
        exact absurd hs (by simp)
    · rw [hr] at hs
      have h1 : r = h := Option.some.inj hs
      subst h1
      exact List.mem_cons_of_mem _ (ih hr)

/-- With unique coordinates, every stored pair is returned by `fetch`. -/
theorem fetchHold_eq_some_of_mem :
    ∀ {g : GridH}, (g.map Prod.fst).Nodup →
      ∀ {c : Cube} {h : Hold}, (c, h) ∈ g → fetchHold g c = some h := by
  intro g
  induction g with
  | nil => intro _ c h hmem; simp at hmem
  | cons p rest ih =>
    intro hnd c h hmem
    obtain ⟨c', h'⟩ := p
    simp only [List.map_cons, List.nodup_cons, List.mem_map] at hnd
    obtain ⟨hc', hndr⟩ := hnd
    simp only [fetchHold]
    rcases List.mem_cons.mp hmem with heq | hmem'
    · cases heq
      rcases hr : fetchHold rest c with _ | r
      · rw [if_pos rfl]
      · exact absurd (fetchHold_mem_of_eq_some hr)
          (fun hm => hc' ⟨(c, r), hm, rfl⟩)
    · rw [ih hndr hmem']

/-- With unique coordinates, `fetch` answers exactly the stored pairs. -/
theorem fetchHold_eq_some_iff_mem {g : GridH}
    (hnd : (g.map Prod.fst).Nodup) {c : Cube} {h : Hold} :
    fetchHold g c = some h ↔ (c, h) ∈ g :=
  ⟨fetchHold_mem_of_eq_some, fetchHold_eq_some_of_mem hnd⟩

/-- Membership in the attacks launched from one tile, by attack fields. -/
theorem mem_attacksFromTile_iff (grid : GridH) (player : Player) (c : Cube)
    (hold : Hold) (T N : Cube) (a d : Nat) :
    Action.attack T N a d ∈ attacksFromTile grid player c hold ↔
      (c = T ∧ hold.owner = player ∧ hold.mobile = true ∧ 1 < hold.dice ∧
       a = hold.dice ∧ N ∈ Cube.neighbours c ∧
       ∃ nh, fetchHold grid N = some nh ∧ nh.owner ≠ player ∧
         nh.dice ≤ hold.dice ∧ d = nh.dice) := by
  unfold attacksFromTile
  by_cases hcond : hold.owner = player ∧ hold.mobile = true ∧ 1 < hold.dice
  · rw [if_pos hcond, List.mem_filterMap]
    constructor
    · rintro ⟨n, hn, hsome⟩
      split at hsome
      · exact absurd hsome (by simp)
      · rename_i nh hf
        split_ifs at hsome with hc2
        have hinj := Option.some.inj hsome
        cases hinj
        exact ⟨rfl, hcond.1, hcond.2.1, hcond.2.2, rfl, hn,
          nh, hf, hc2.1, hc2.2, rfl⟩
    · rintro ⟨rfl, _, _, _, rfl, hn, nh, hf, hno, hnd, rfl⟩
      exact ⟨N, hn, by simp [hf, hno, hnd]⟩
  · rw [if_neg hcond]
    constructor
    · intro hfalse; exact absurd hfalse (List.not_mem_nil _)
    · rintro ⟨_, h1, h2, h3, _⟩; exact absurd ⟨h1, h2, h3⟩ hcond

/-- The legal-attack characterization through `fetch`, for grids with unique
coordinates. -/
theorem mem_all_legal_attacks_fetch (grid : GridH) (player : Player)
    (hnd : (grid.map Prod.fst).Nodup) (T N : Cube) (a d : Nat) :
    Action.attack T N a d ∈ all_legal_attacks_from grid player ↔
      ∃ th, fetchHold grid T = some th ∧ th.owner = player ∧
        th.mobile = true ∧ 1 < th.dice ∧ a = th.dice ∧
        N ∈ Cube.neighbours T ∧
        ∃ nh, fetchHold grid N = some nh ∧ nh.owner ≠ player ∧
          nh.dice ≤ th.dice ∧ d = nh.dice := by
  rw [mem_all_legal_attacks_from]
  constructor
  · rintro ⟨⟨c, hold⟩, hmem, hatk⟩
    rw [mem_attacksFromTile_iff] at hatk
    obtain ⟨rfl, h1, h2, h3, h4, h5, h6⟩ := hatk
    exact ⟨hold, (fetchHold_eq_some_iff_mem hnd).mpr hmem, h1, h2, h3, h4, h5, h6⟩
  · rintro ⟨th, hf, h1, h2, h3, h4, h5, h6⟩
    refine ⟨(T, th), (fetchHold_eq_some_iff_mem hnd).mp hf, ?_⟩
    rw [mem_attacksFromTile_iff]
    exact ⟨rfl, h1, h2, h3, h4, h5, h6⟩

/-- Claim C1: for every board, the attack enumeration includes an attack from
tile `T` to tile `N` if and only if `T` is owned by the current player with
`mobile = true` and more than one die, `N` is one of `T`'s six neighbours
present on the grid, `N` is owned by a different player, and `N`'s dice count
is at most `T`'s (equal dice may attack); the attack records both tiles' dice
counts. -/
theorem claim_C1_legal_attacks (b : Board) (T N : Cube) (a d : Nat)
    (hnd : (b.grid.map Prod.fst).Nodup) :
    Action.attack T N a d ∈
        all_legal_attacks_from b.grid b.players.currentPlayer ↔
      ∃ th, fetchHold b.grid T = some th ∧
        th.owner = b.players.currentPlayer ∧ th.mobile = true ∧
        1 < th.dice ∧ a = th.dice ∧ N ∈ Cube.neighbours T ∧
        ∃ nh, fetchHold b.grid N = some nh ∧
          nh.owner ≠ b.players.currentPlayer ∧ nh.dice ≤ th.dice ∧
          d = nh.dice :=
  mem_all_legal_attacks_fetch b.grid b.players.currentPlayer hnd T N a d

/-- Witness for C1: the single legal attack on the canned one-attack 2×2
board. -/
theorem claim_C1_witness :
    Action.attack c00 c10 2 1 ∈
      all_legal_attacks_from b2x2atk.grid b2x2atk.players.currentPlayer :=
  (claim_C1_legal_attacks b2x2atk c00 c10 2 1 (by decide)).mpr
    ⟨⟨pA, 2, true⟩, by decide, by decide, rfl, by decide, rfl, by decide,
     ⟨pB, 1, true⟩, by decide, by decide, by decide, rfl⟩

/-- The three half-neighbours are neighbours. -/
theorem threeNeighbours_subset (c n : Cube) :
    n ∈ c.threeNeighbours → n ∈ c.neighbours := by
  intro hn
  simp only [Cube.threeNeighbours, List.mem_cons, List.not_mem_nil,
    or_false] at hn
  simp only [Cube.neighbours, List.mem_cons, List.not_mem_nil, or_false]
  rcases hn with rfl | rfl | rfl <;> tauto

/-- Every adjacency is witnessed by a half-neighbour probe from one of its
two ends: the half directions and their negations cover all six. -/
theorem mem_neighbours_split (c n : Cube) (h : n ∈ c.neighbours) :
    n ∈ c.threeNeighbours ∨ c ∈ n.threeNeighbours := by
  simp only [Cube.neighbours, List.mem_cons, List.not_mem_nil, or_false] at h
  simp only [Cube.threeNeighbours, List.mem_cons, List.not_mem_nil, or_false]
  obtain ⟨cx, cy, cz⟩ := c
  rcases h with rfl | rfl | rfl | rfl | rfl | rfl <;>
    simp [Cube.add, dirUpRight, dirRight, dirDownRight, dirDownLeft, dirLeft,
      dirUpLeft, Cube.mk.injEq] <;>
    omega

/-- The edge probe reports `false` exactly on an attackable edge. -/
theorem stalemateEdge_eq_false_iff (g : GridH) (h : Hold) (n : Cube) :
    stalemateEdge g h n = false ↔
      ∃ other, fetchHold g n = some other ∧ other.owner ≠ h.owner ∧
        (1 < other.dice ∨ 1 < h.dice) := by
  unfold stalemateEdge
  split
  · rename_i hf
    simp [hf]
  · rename_i other hf
    by_cases hcond : other.owner ≠ h.owner ∧ (1 < other.dice ∨ 1 < h.dice)
    · rw [if_pos hcond]
      constructor
      · intro _
        exact ⟨other, hf, hcond.1, hcond.2⟩
      · intro _
        rfl
    · rw [if_neg hcond]
      constructor
      · intro hfalse; exact absurd hfalse (by simp)
      · rintro ⟨o, ho, h1, h2⟩
        rw [hf] at ho
        cases Option.some.inj ho
        exact absurd ⟨h1, h2⟩ hcond

/-- The stalemate scan fails exactly when some tile sees an attackable edge
through a half-neighbour probe. -/
theorem stalemate_eq_false_iff_scan (b : Board) (hlen : 2 ≤ b.grid.length) :
    stalemate b = false ↔
      ∃ t ∈ b.grid, ∃ n ∈ t.1.threeNeighbours,
        stalemateEdge b.grid t.2 n = false := by
  unfold stalemate
  rw [if_neg (by omega)]
  rw [List.all_eq_false]
  constructor
  · rintro ⟨t, ht, hall⟩
    rw [Bool.not_eq_true, List.all_eq_false] at hall
    obtain ⟨n, hn, hedge⟩ := hall
    exact ⟨t, ht, n, hn, by simpa using hedge⟩
  · rintro ⟨t, ht, n, hn, hedge⟩
    refine ⟨t, ht, ?_⟩
    rw [Bool.not_eq_true, List.all_eq_false]
    exact ⟨n, hn, by simp [hedge]⟩

/-- Claim C2: for every board with at least two tiles, the stalemate check
returns `false` exactly when some pair of adjacent tiles has different
owners and either of the two tiles has more than one die; boards with fewer
than two tiles are never reported as stalemate. -/
theorem claim_C2_stalemate (b : Board) :
    (b.grid.length < 2 → stalemate b = false) ∧
    ((b.grid.map Prod.fst).Nodup → 2 ≤ b.grid.length →
      (stalemate b = false ↔
        ∃ c₁ c₂ h₁ h₂, fetchHold b.grid c₁ = some h₁ ∧
          fetchHold b.grid c₂ = some h₂ ∧ c₂ ∈ Cube.neighbours c₁ ∧
          h₁.owner ≠ h₂.owner ∧ (1 < h₁.dice ∨ 1 < h₂.dice))) := by
  constructor
  · intro hlen
    unfold stalemate
    rw [if_pos hlen]
  · intro hnd hlen
    rw [stalemate_eq_false_iff_scan b hlen]
    constructor
    · rintro ⟨⟨c₁, h₁⟩, hmem, n, hn, hedge⟩
      rw [stalemateEdge_eq_false_iff] at hedge
      obtain ⟨other, hf, hno, hdice⟩ := hedge
      exact ⟨c₁, n, h₁, other, fetchHold_eq_some_of_mem hnd hmem, hf,
        threeNeighbours_subset c₁ n hn, hno.symm, hdice.symm⟩
    · rintro ⟨c₁, c₂, h₁, h₂, hf1, hf2, hadj, hne, hdice⟩
      rcases mem_neighbours_split c₁ c₂ hadj with hhalf | hhalf
      · exact ⟨(c₁, h₁), fetchHold_mem_of_eq_some hf1, c₂, hhalf,
          (stalemateEdge_eq_false_iff _ _ _).mpr
            ⟨h₂, hf2, hne.symm, hdice.symm⟩⟩
      · exact ⟨(c₂, h₂), fetchHold_mem_of_eq_some hf2, c₁, hhalf,
          (stalemateEdge_eq_false_iff _ _ _).mpr ⟨h₁, hf1, hne, hdice⟩⟩

/-- Witness for C2: the canned 2×2 losing board has at least two tiles and
is not a stalemate, via its A–B edge with dice 2 and 3. -/
theorem claim_C2_witness :
    2 ≤ b2x2.grid.length ∧ stalemate b2x2 = false :=
  ⟨by decide,
   ((claim_C2_stalemate b2x2).2 (by decide) (by decide)).mpr
     ⟨c00, c10, ⟨pA, 2, true⟩, ⟨pB, 3, true⟩, by decide, by decide,
      by decide, by decide, by decide⟩⟩

/-- Claim C3: on a board where the current player has no legal attack and
which is neither a win, a knockout nor a stalemate, the rules engine returns
exactly one Pass choice whose TurnOver board reinforces the current player's
tiles with the `captured_dice - 1` budget (saturating at zero), advances the
roster and resets both counters. -/
theorem claim_C3_turnover_pass (b : Board) (moveLimit : Nat)
    (hatk : all_legal_attacks_from b.grid b.players.currentPlayer = [])
    (hw : winner b = false) (hl : loser b = false)
    (hs : stalemate b = false) :
    choices_from_board_only_pass_at_end b moveLimit =
      [⟨.pass, .turnOver ⟨b.players.next,
        reinforce b.grid b.players.currentPlayer (b.capturedDice - 1),
        0, 0⟩⟩] := by
  simp [choices_from_board_only_pass_at_end, turnOverBoard, hatk, hw, hl, hs]

/-- Witness for C3: the canned 2×2 losing board takes the TurnOver path. -/
theorem claim_C3_witness :
    all_legal_attacks_from b2x2.grid b2x2.players.currentPlayer = [] ∧
    winner b2x2 = false ∧ loser b2x2 = false ∧ stalemate b2x2 = false ∧
    choices_from_board_only_pass_at_end b2x2 100 =
      [⟨.pass, .turnOver ⟨b2x2.players.next,
        reinforce b2x2.grid b2x2.players.currentPlayer
          (b2x2.capturedDice - 1), 0, 0⟩⟩] :=
  ⟨by decide, by decide, by decide, by decide,
   claim_C3_turnover_pass b2x2 100 (by decide) (by decide) (by decide)
     (by decide)⟩

/-- Fetching through `fork_with` maps the stored hold at every coordinate. -/
theorem fetchHold_forkWith (F : Cube → Hold → Hold) (c : Cube) :
    ∀ g : GridH, fetchHold (forkWith g F) c = (fetchHold g c).map (F c) := by
  intro g
  induction g with
  | nil => rfl
  | cons p rest ih =>
    obtain ⟨c', h'⟩ := p
    simp only [forkWith, List.map_cons] at *
    simp only [fetchHold]
    rw [ih]
    rcases hr : fetchHold rest c with _ | r
    · simp only [Option.map_none']
      by_cases hcc : c' = c
      · subst hcc
        simp
      · simp [hcc]
    · simp

/-- A neighbour is a different cube. -/
theorem ne_of_mem_neighbours (c n : Cube) : n ∈ c.neighbours → n ≠ c := by
  intro hn
  simp only [Cube.neighbours, List.mem_cons, List.not_mem_nil, or_false] at hn
  obtain ⟨cx, cy, cz⟩ := c
  rcases hn with rfl | rfl | rfl | rfl | rfl | rfl <;>
    simp [Cube.add, dirUpRight, dirRight, dirDownRight, dirDownLeft, dirLeft,
      dirUpLeft, Cube.mk.injEq] <;>
    omega

/-- An attack-action choice comes from the attack branch: its action is a
legal attack and its consequence is the Continue board built from it. -/
theorem attack_choice_mem (b : Board) (moveLimit : Nat) (ch : Choice)
    (f t : Cube) (a d : Nat)
    (hmem : ch ∈ choices_from_board_only_pass_at_end b moveLimit)
    (hact : ch.action = .attack f t a d) :
    Action.attack f t a d ∈
      all_legal_attacks_from b.grid b.players.currentPlayer ∧
    ch = ⟨.attack f t a d, .continueGame ⟨b.players,
      grid_from_move b.grid (.attack f t a d),
      b.capturedDice + (Action.attack f t a d).capturing, b.moved + 1⟩⟩ := by
  simp only [choices_from_board_only_pass_at_end] at hmem
  split_ifs at hmem with h1 h2 h3 h4 h5
  · rw [List.mem_singleton] at hmem
    subst hmem
    simp at hact
  · rw [List.mem_singleton] at hmem
    subst hmem
    simp at hact
  · rw [List.mem_singleton] at hmem
    subst hmem
    simp at hact
  · rw [List.mem_singleton] at hmem
    subst hmem
    simp at hact
  · rw [List.mem_singleton] at hmem
    subst hmem
    simp at hact
  · rw [List.mem_map] at hmem
    obtain ⟨a', ha', heq⟩ := hmem
    subst heq
    simp only at hact
    subst hact
    exact ⟨ha', rfl⟩

/-- Claim C4: for every attack choice produced by the rules engine with
attacker dice count `a`, the Continue board's grid differs from the source
grid at exactly the two involved tiles: the attacked-from tile keeps its
owner with a single die, the attacked-to tile holds `a - 1` dice owned by
the attacker, and every other coordinate fetches unchanged. -/
theorem claim_C4_attack_frame (b : Board) (moveLimit : Nat) (ch : Choice)
    (f t : Cube) (a d : Nat)
    (hnd : (b.grid.map Prod.fst).Nodup)
    (hmem : ch ∈ choices_from_board_only_pass_at_end b moveLimit)
    (hact : ch.action = .attack f t a d) :
    ∃ bb fh th,
      ch.consequence = .continueGame bb ∧
      fetchHold b.grid f = some fh ∧ fetchHold b.grid t = some th ∧
      fh.dice = a ∧ 1 < a ∧ th.owner ≠ fh.owner ∧ f ≠ t ∧
      fetchHold bb.grid f = some ⟨fh.owner, 1, fh.mobile⟩ ∧
      fetchHold bb.grid t = some ⟨fh.owner, a - 1, th.mobile⟩ ∧
      ∀ c, c ≠ f → c ≠ t → fetchHold bb.grid c = fetchHold b.grid c := by
  obtain ⟨hatk, rfl⟩ := attack_choice_mem b moveLimit ch f t a d hmem hact
  rw [mem_all_legal_attacks_fetch _ _ hnd] at hatk
  obtain ⟨fh, hfT, hown, _, hdice, ha, hNmem, nh, hfN, hno, _, hd⟩ := hatk
  have htf : t ≠ f := ne_of_mem_neighbours f t hNmem
  have hgrid : grid_from_move b.grid (.attack f t a d) =
      forkWith b.grid (fun c h =>
        if c = f then ⟨fh.owner, 1, h.mobile⟩
        else if c = t then ⟨fh.owner, fh.dice - 1, h.mobile⟩
        else h) := by
    simp only [grid_from_move, attacking_move, hfT]
  refine ⟨_, fh, nh, rfl, hfT, hfN, ha.symm, ?_, ?_, htf.symm, ?_, ?_, ?_⟩
  · omega
  · rw [hown]
    exact hno
  · rw [hgrid, fetchHold_forkWith, hfT]
    simp
  · rw [hgrid, fetchHold_forkWith, hfN]
    simp [htf, ha]
  · intro c hcf hct
    rw [hgrid, fetchHold_forkWith]
    rcases hfc : fetchHold b.grid c with _ | hc <;> simp [hcf, hct]


/-- Witness for C4: the one attack choice of the canned 2×2 board, with the
two involved tiles distinct. -/
theorem claim_C4_witness :
    (⟨.attack c00 c10 2 1, .continueGame ⟨b2x2atk.players,
       grid_from_move b2x2atk.grid (.attack c00 c10 2 1), 1, 1⟩⟩ : Choice)
      ∈ choices_from_board_only_pass_at_end b2x2atk 100 ∧
    c00 ≠ c10 := by
  have hmem : (⟨.attack c00 c10 2 1, .continueGame ⟨b2x2atk.players,
      grid_from_move b2x2atk.grid (.attack c00 c10 2 1), 1, 1⟩⟩ : Choice)
      ∈ choices_from_board_only_pass_at_end b2x2atk 100 := by decide
  refine ⟨hmem, ?_⟩
  obtain ⟨bb, fh, th, _, _, _, _, _, _, hft, _⟩ :=
    claim_C4_attack_frame b2x2atk 100 _ c00 c10 2 1 (by decide) hmem rfl
  exact hft

/-- A first-match lookup survives appending entries on the right. -/
theorem lookupS_append_left :
    ∀ {s : States} (t : States) {b : Board} {cs : List Choice},
      lookupS s b = some cs → lookupS (s ++ t) b = some cs := by
  intro s
  induction s with
  | nil => intro t b cs h; simp [lookupS] at h
  | cons p rest ih =>
    intro t b cs h
    obtain ⟨b', cs'⟩ := p
    simp only [List.cons_append, lookupS] at h ⊢
    by_cases hbb : b' = b
    · rw [if_pos hbb] at h ⊢; exact h
    · rw [if_neg hbb] at h ⊢; exact ih t h

/-- Lookup after appending one fresh entry: either the old map answered, or
the new entry is hit. -/
theorem lookupS_append_single :
    ∀ (s : States) (b : Board) (v : List Choice) (b' : Board)
      (cs : List Choice),
      lookupS (s ++ [(b, v)]) b' = some cs →
      lookupS s b' = some cs ∨ (b' = b ∧ cs = v) := by
  intro s
  induction s with
  | nil =>
    intro b v b' cs h
    simp only [List.nil_append, lookupS] at h
    by_cases hbb : b = b'
    · rw [if_pos hbb] at h
      exact Or.inr ⟨hbb.symm, (Option.some.inj h).symm⟩
    · rw [if_neg hbb] at h
      simp [lookupS] at h
  | cons p rest ih =>
    intro b v b' cs h
    obtain ⟨b'', cs''⟩ := p
    simp only [List.cons_append, lookupS] at h ⊢
    by_cases hbb : b'' = b'
    · rw [if_pos hbb] at h ⊢; exact Or.inl h
    · rw [if_neg hbb] at h ⊢; exact ih b v b' cs h

/-- Key membership survives appending entries on the right. -/
theorem containsKeyS_append_left {s : States} (t : States) {b : Board}
    (h : containsKeyS s b = true) : containsKeyS (s ++ t) b = true := by
  unfold containsKeyS at *
  rw [List.any_append, h]
  rfl

/-- The appended entry's key is present. -/
theorem containsKeyS_append_self (s : States) (b : Board) (v : List Choice) :
    containsKeyS (s ++ [(b, v)]) b = true := by
  unfold containsKeyS
  rw [List.any_append]
  simp

/-- All the guarantees of one pass of the shared expander layer loop:
lookups and keys are preserved, the pending accumulator only grows, every
layer board ends up a key, and every stored vector is either old or the
rules output for its fresh key with all its consequence boards pushed to the
next layer. -/
theorem processLayer_spec (moveLimit : Nat) :
    ∀ (layer : List Board) (states : States) (next : List Board),
      (∀ b cs, lookupS states b = some cs →
        lookupS (processLayer moveLimit states next layer).1 b = some cs) ∧
      (∀ b, containsKeyS states b = true →
        containsKeyS (processLayer moveLimit states next layer).1 b = true) ∧
      (∀ x, x ∈ next → x ∈ (processLayer moveLimit states next layer).2) ∧
      (∀ b, b ∈ layer →
        containsKeyS (processLayer moveLimit states next layer).1 b = true) ∧
      (∀ b cs,
        lookupS (processLayer moveLimit states next layer).1 b = some cs →
        lookupS states b = some cs ∨
          (cs = choices_from_board_only_pass_at_end b moveLimit ∧
           ∀ ch ∈ cs, ch.consequence.board ∈
             (processLayer moveLimit states next layer).2)) := by
  intro layer
  induction layer with
  | nil =>
    intro states next
    refine ⟨fun b cs h => h, fun b h => h, fun x h => h, ?_, ?_⟩
    · intro b h; simp at h
    · intro b cs h; exact Or.inl h
  | cons l ls ih =>
    intro states next
    by_cases hc : containsKeyS states l = true
    · have hred : processLayer moveLimit states next (l :: ls) =
          processLayer moveLimit states next ls := by
        simp only [processLayer, hc, if_pos]
      rw [hred]
      obtain ⟨ih1, ih2, ih3, ih4, ih5⟩ := ih states next
      refine ⟨ih1, ih2, ih3, ?_, ih5⟩
      intro b hb
      rcases List.mem_cons.mp hb with rfl | hb
      · exact ih2 b hc
      · exact ih4 b hb
    · have hred : processLayer moveLimit states next (l :: ls) =
          processLayer moveLimit
            (states ++ [(l, choices_from_board_only_pass_at_end l moveLimit)])
            (next ++ (choices_from_board_only_pass_at_end l moveLimit).map
              (fun ch => ch.consequence.board)) ls := by
        simp only [processLayer, hc]
        rw [if_neg (by simp [hc])]
      rw [hred]
      obtain ⟨ih1, ih2, ih3, ih4, ih5⟩ := ih
        (states ++ [(l, choices_from_board_only_pass_at_end l moveLimit)])
        (next ++ (choices_from_board_only_pass_at_end l moveLimit).map
          (fun ch => ch.consequence.board))
      refine ⟨?_, ?_, ?_, ?_, ?_⟩
      · intro b cs h
        exact ih1 b cs (lookupS_append_left _ h)
      · intro b h
        exact ih2 b (containsKeyS_append_left _ h)
      · intro x hx
        exact ih3 x (List.mem_append_left _ hx)
      · intro b hb
        rcases List.mem_cons.mp hb with rfl | hb
        · exact ih2 b (containsKeyS_append_self states b _)
        · exact ih4 b hb
      · intro b cs h
        rcases ih5 b cs h with h' | h'
        · rcases lookupS_append_single states l _ b cs h' with h'' | ⟨rfl, rfl⟩
          · exact Or.inl h''
          · refine Or.inr ⟨rfl, ?_⟩
            intro ch hch
            exact ih3 _ (List.mem_append_right _
              (List.mem_map.mpr ⟨ch, hch, rfl⟩))
        · exact Or.inr h'

/-- The invariants carried by the unbounded breadth-first loop to a
successful (empty-frontier) termination. -/
theorem bfsAux_spec (moveLimit : Nat) :
    ∀ (fuel : Nat) (states : States) (layer : List Board) (final : States),
      bfsAux moveLimit fuel states layer = some final →
      (∀ b cs, lookupS states b = some cs →
        ∀ ch ∈ cs, containsKeyS states ch.consequence.board = true ∨
          ch.consequence.board ∈ layer) →
      (∀ b, containsKeyS states b = true → containsKeyS final b = true) ∧
      (∀ b, b ∈ layer → containsKeyS final b = true) ∧
      (∀ b cs, lookupS final b = some cs →
        ∀ ch ∈ cs, containsKeyS final ch.consequence.board = true) ∧
      (∀ b cs, lookupS final b = some cs →
        lookupS states b = some cs ∨
          cs = choices_from_board_only_pass_at_end b moveLimit) := by
  intro fuel
  induction fuel with
  | zero =>
    intro states layer final h hinv
    cases layer with
    | nil =>
      have hfs : states = final := Option.some.inj (by simpa [bfsAux] using h)
      subst hfs
      refine ⟨fun b h => h, by simp, ?_, fun b cs h => Or.inl h⟩
      intro b cs hl ch hch
      rcases hinv b cs hl ch hch with h' | h'
      · exact h'
      · simp at h'
    | cons l ls => simp [bfsAux] at h
  | succ fuel ih =>
    intro states layer final h hinv
    cases layer with
    | nil =>
      have hfs : states = final := Option.some.inj (by simpa [bfsAux] using h)
      subst hfs
      refine ⟨fun b h => h, by simp, ?_, fun b cs h => Or.inl h⟩
      intro b cs hl ch hch
      rcases hinv b cs hl ch hch with h' | h'
      · exact h'
      · simp at h'
    | cons l ls =>
      have hstep : bfsAux moveLimit (fuel + 1) states (l :: ls) =
          bfsAux moveLimit fuel
            (processLayer moveLimit states [] (l :: ls)).1
            (processLayer moveLimit states [] (l :: ls)).2 := by
        simp only [bfsAux]
      rw [hstep] at h
      obtain ⟨p1, p2, p3, p4, p5⟩ := processLayer_spec moveLimit (l :: ls) states []
      have hinv' : ∀ b cs,
          lookupS (processLayer moveLimit states [] (l :: ls)).1 b = some cs →
          ∀ ch ∈ cs,
            containsKeyS (processLayer moveLimit states [] (l :: ls)).1
              ch.consequence.board = true ∨
            ch.consequence.board ∈
              (processLayer moveLimit states [] (l :: ls)).2 := by
        intro b cs hl ch hch
        rcases p5 b cs hl with h' | ⟨_, hchild⟩
        · rcases hinv b cs h' ch hch with h'' | h''
          · exact Or.inl (p2 _ h'')
          · exact Or.inl (p4 _ h'')
        · exact Or.inr (hchild ch hch)
      obtain ⟨q1, q2, q3, q4⟩ := ih _ _ final h hinv'
      refine ⟨fun b hb => q1 b (p2 b hb), fun b hb => q1 b (p4 b hb), q3, ?_⟩
      intro b cs hl
      rcases q4 b cs hl with h' | h'
      · rcases p5 b cs h' with h'' | ⟨h'', _⟩
        · exact Or.inl h''
        · exact Or.inr h''
      · exact Or.inr h'

/-- Claim C5: in the state map produced by full expansion (the unbounded
breadth-first loop run to an empty frontier), the root board is a key, every
stored choice's consequence board is a key, and hence every board reachable
from the root via stored choices is a key. -/
theorem claim_C5_full_expansion (start : Board) (moveLimit fuel : Nat)
    (final : States)
    (h : breadth_first_calc_consequences start moveLimit fuel = some final) :
    containsKeyS final start = true ∧
    (∀ b cs, lookupS final b = some cs →
      ∀ ch ∈ cs, containsKeyS final ch.consequence.board = true) ∧
    (∀ b, Reaches final start b → containsKeyS final b = true) := by
  unfold breadth_first_calc_consequences at h
  obtain ⟨hmono, hlayer, hclosed, _⟩ :=
    bfsAux_spec moveLimit fuel [] [start] final h
      (by intro b cs hl; simp [lookupS] at hl)
  refine ⟨hlayer start (by simp), hclosed, ?_⟩
  intro b hr
  induction hr with
  | refl => exact hlayer start (by simp)
  | step cs ch hr hl hm hceq ihr =>
    rw [← hceq]
    exact hclosed _ cs hl ch hm

/-- Witness for C5: the 2×1 fixture fully expands in ten layers and its
start board is a key of the resulting map. -/
theorem claim_C5_witness :
    breadth_first_calc_consequences b2x1 100 10 = some bfsW ∧
    containsKeyS bfsW b2x1 = true := by
  have h : breadth_first_calc_consequences b2x1 100 10 = some bfsW := by
    decide
  exact ⟨h, (claim_C5_full_expansion b2x1 100 10 bfsW h).1⟩

/-- Lookup in a table pairing each listed player with a computed score. -/
theorem lookupP_map_self (f : Player → Score) :
    ∀ (l : List Player) (p : Player),
      lookupP (l.map (fun q => (q, f q))) p =
        if p ∈ l then some (f p) else none := by
  intro l
  induction l with
  | nil => intro p; simp [lookupP]
  | cons q rest ih =>
    intro p
    simp only [List.map_cons, lookupP]
    by_cases hq : q = p
    · subst hq
      simp
    · rw [if_neg hq, ih]
      have hq' : ¬p = q := fun h => hq h.symm
      simp [List.mem_cons, hq']

/-- The `score_board` table answers the owned fraction for every player;
players holding no tile are absent and default to the zero score, which
equals their (zero) fraction. -/
theorem score_board_lookup (b : Board) (p : Player) :
    (lookupP (score_board b) p).getD ⟨0, 0⟩ = ⟨scoreBoardFrac b p, 0⟩ := by
  unfold score_board
  rw [lookupP_map_self]
  by_cases hmem : p ∈ (b.grid.map (fun t => t.2.owner)).dedup
  · rw [if_pos hmem]
    rfl
  · rw [if_neg hmem]
    have hcount : countOwned b.grid p = 0 := by
      rw [List.mem_dedup] at hmem
      unfold countOwned
      rw [List.length_eq_zero, List.filter_eq_nil]
      intro t ht
      simp only [decide_eq_true_eq]
      intro heq
      exact hmem (List.mem_map.mpr ⟨t, ht, heq⟩)
    unfold scoreBoardFrac
    rw [hcount]
    simp

/-- Reading a score cell after one write. -/
theorem lookupA_setA (m : Assign) (b : Board) (i : Nat) (s : Score)
    (b' : Board) (i' : Nat) :
    lookupA (setA m b i s) b' i' =
      if b = b' ∧ i = i' then some s else lookupA m b' i' := rfl

/-- The choice loop only writes score cells that satisfy `LeafSpec`,
provided the recursive call does. -/
theorem scoreChoices_spec (tree : Tree) (player : Player) (b : Board)
    (recCall : Board → Assign → Assign × SubScores)
    (hrec : ∀ bb assign b' i' s,
      lookupA (recCall bb assign).1 b' i' = some s →
      lookupA assign b' i' = some s ∨ LeafSpec tree b' i' s)
    (hplayer : player = b.players.currentPlayer)
    (cs : List Choice) (hcs : tree.fetch_choices b = some cs) :
    ∀ (pairs : List (Nat × Choice)),
      (∀ p ∈ pairs, cs[p.1]? = some p.2) →
      ∀ (assign : Assign) (scores : SubScores) (b' : Board) (i' : Nat)
        (s : Score),
        lookupA (scoreChoices recCall player b pairs assign scores).1 b' i' =
          some s →
        lookupA assign b' i' = some s ∨ LeafSpec tree b' i' s := by
  intro pairs
  induction pairs with
  | nil =>
    intro _ assign scores b' i' s h
    exact Or.inl h
  | cons pc rest ih =>
    intro hp assign scores b' i' s h
    obtain ⟨i, ch⟩ := pc
    have hpi : cs[i]? = some ch := hp (i, ch) (List.mem_cons_self _ _)
    have hrest : ∀ p ∈ rest, cs[p.1]? = some p.2 :=
      fun p hp' => hp p (List.mem_cons_of_mem _ hp')
    simp only [scoreChoices] at h
    by_cases hg : (lookupA assign b i).isSome = true
    · rw [if_pos hg] at h
      exact ih hrest assign scores b' i' s h
    · rw [if_neg hg] at h
      split at h
      · rename_i bb hcons
        dsimp only at h
        rw [lookupA_setA] at h
        split_ifs at h with hkey
        · obtain ⟨rfl, rfl⟩ := hkey
          refine Or.inr ⟨cs, ch, hcs, hpi, ?_, ?_⟩
          · intro bb' hw
            rw [hcons] at hw
            simp at hw
          · intro bb' hst
            rw [hcons] at hst
            cases hst
            rw [← Option.some.inj h, score_board_lookup, hplayer]
        · exact Or.inl h
      · rename_i bb hcons
        dsimp only at h
        rw [lookupA_setA] at h
        split_ifs at h with hkey
        · obtain ⟨rfl, rfl⟩ := hkey
          refine Or.inr ⟨cs, ch, hcs, hpi, ?_, ?_⟩
          · intro bb' _
            exact (Option.some.inj h).symm
          · intro bb' hst
            rw [hcons] at hst
            simp at hst
        · exact Or.inl h
      · rename_i bb hcons
        rcases ih hrest _ _ b' i' s h with h' | h'
        · rw [lookupA_setA] at h'
          split_ifs at h' with hkey
          · obtain ⟨rfl, rfl⟩ := hkey
            refine Or.inr ⟨cs, ch, hcs, hpi, ?_, ?_⟩
            · intro bb' hw
              rw [hcons] at hw
              simp at hw
            · intro bb' hst
              rw [hcons] at hst
              simp at hst
          · exact hrec bb assign b' i' s h'
        · exact Or.inr h'
      · rename_i bb hcons
        have hvac : LeafSpec tree b i s := by
          refine ⟨cs, ch, hcs, hpi, ?_, ?_⟩
          · intro bb' hw
            rw [hcons] at hw
            simp at hw
          · intro bb' hst
            rw [hcons] at hst
            simp at hst
        split at h
        · rcases ih hrest _ _ b' i' s h with h' | h'
          · rw [lookupA_setA] at h'
            split_ifs at h' with hkey
            · obtain ⟨rfl, rfl⟩ := hkey
              exact Or.inr hvac
            · exact hrec bb assign b' i' s h'
          · exact Or.inr h'
        · rcases ih hrest _ _ b' i' s h with h' | h'
          · rw [lookupA_setA] at h'
            split_ifs at h' with hkey
            · obtain ⟨rfl, rfl⟩ := hkey
              exact Or.inr hvac
            · exact hrec bb assign b' i' s h'
          · exact Or.inr h'
      · rename_i bb hcons
        have hvac : LeafSpec tree b i s := by
          refine ⟨cs, ch, hcs, hpi, ?_, ?_⟩
          · intro bb' hw
            rw [hcons] at hw
            simp at hw
          · intro bb' hst
            rw [hcons] at hst
            simp at hst
        split at h
        · rcases ih hrest _ _ b' i' s h with h' | h'
          · rw [lookupA_setA] at h'
            split_ifs at h' with hkey
            · obtain ⟨rfl, rfl⟩ := hkey
              exact Or.inr hvac
            · exact hrec bb assign b' i' s h'
          · exact Or.inr h'
        · rcases ih hrest _ _ b' i' s h with h' | h'
          · rw [lookupA_setA] at h'
            split_ifs at h' with hkey
            · obtain ⟨rfl, rfl⟩ := hkey
              exact Or.inr hvac
            · exact hrec bb assign b' i' s h'
          · exact Or.inr h'

/-- Every score cell the scorer writes satisfies `LeafSpec`. -/
theorem scoreGo_spec (tree : Tree) :
    ∀ (fuel : Nat) (board : Board) (assign : Assign) (b' : Board) (i' : Nat)
      (s : Score),
      lookupA (scoreGo tree fuel board assign).1 b' i' = some s →
      lookupA assign b' i' = some s ∨ LeafSpec tree b' i' s := by
  intro fuel
  induction fuel with
  | zero =>
    intro board assign b' i' s h
    exact Or.inl h
  | succ fuel ih =>
    intro board assign b' i' s h
    simp only [scoreGo] at h
    split at h
    · exact Or.inl h
    · rename_i cs hcs
      exact scoreChoices_spec tree board.players.currentPlayer board
        (scoreGo tree fuel) (fun bb a bb' ii ss => ih bb a bb' ii ss) rfl
        cs hcs cs.enum
        (fun p hp => by
          have := List.mem_enum_iff_getElem?.mp hp
          simpa using this)
        assign [] b' i' s h

/-- Claim C6: when the scorer reaches a choice whose consequence is Winner,
that choice's freshly written score is `(1, 0)`; when it reaches a choice
whose consequence is `Stalemate(b)`, the written score is the acting
player's fraction of owned tiles in `b` at distance `0`. -/
theorem claim_C6_scorer_leaf_scores (tree : Tree) (fuel : Nat)
    (board : Board) (m : Assign) (b : Board) (i : Nat) (s : Score)
    (cs : List Choice) (ch : Choice)
    (h0 : lookupA m b i = none)
    (h1 : lookupA (scoreGo tree fuel board m).1 b i = some s)
    (hcs : tree.fetch_choices b = some cs) (hch : cs[i]? = some ch) :
    (∀ bb, ch.consequence = .winner bb → s = ⟨1, 0⟩) ∧
    (∀ bb, ch.consequence = .stalemate bb →
      s = ⟨scoreBoardFrac bb b.players.currentPlayer, 0⟩) := by
  rcases scoreGo_spec tree fuel board m b i s h1 with h | h
  · rw [h0] at h
    exact absurd h (by simp)
  · obtain ⟨cs', ch', hcs', hch', hw, hst⟩ := h
    rw [hcs] at hcs'
    cases Option.some.inj hcs'
    rw [hch] at hch'
    cases Option.some.inj hch'
    exact ⟨hw, hst⟩

/-- Witness for C6: scoring the one-board winner tree writes `(1, 0)` into
the lone Pass/Winner choice. -/
theorem claim_C6_witness :
    lookupA ([] : Assign) b1x1 0 = none ∧
    lookupA (scoreGo treeW 2 b1x1 []).1 b1x1 0 = some ⟨1, 0⟩ ∧
    (⟨1, 0⟩ : Score) = ⟨1, 0⟩ := by
  refine ⟨rfl, by decide, ?_⟩
  exact (claim_C6_scorer_leaf_scores treeW 2 b1x1 [] b1x1 0 ⟨1, 0⟩
    [⟨.pass, .winner b1x1⟩] ⟨.pass, .winner b1x1⟩ rfl (by decide) (by decide)
    (by decide)).1 b1x1 rfl

/-- Every enumerated legal attack is an Attack action. -/
theorem all_legal_attacks_shape (grid : GridH) (player : Player) :
    ∀ a ∈ all_legal_attacks_from grid player,
      ∃ f t ad dd, a = Action.attack f t ad dd := by
  intro a ha
  rw [mem_all_legal_attacks_from] at ha
  obtain ⟨t, _, hmem⟩ := ha
  unfold attacksFromTile at hmem
  split_ifs at hmem with hcond
  · rw [List.mem_filterMap] at hmem
    obtain ⟨n, _, hsome⟩ := hmem
    split at hsome
    · exact absurd hsome (by simp)
    · rename_i nh hf
      split_ifs at hsome with hc2
      exact ⟨_, _, _, _, (Option.some.inj hsome).symm⟩
  · simp at hmem

/-- The shape of every rules-engine choice: a Pass action carries a Winner,
GameOver, Stalemate or TurnOver consequence, and a Continue consequence
comes with an Attack action. -/
theorem rules_choice_shape (b : Board) (moveLimit : Nat) :
    ∀ ch ∈ choices_from_board_only_pass_at_end b moveLimit,
      (ch.action = .pass →
        (∃ bb, ch.consequence = .winner bb) ∨
        (∃ bb, ch.consequence = .gameOver bb) ∨
        (∃ bb, ch.consequence = .stalemate bb) ∨
        (∃ bb, ch.consequence = .turnOver bb)) ∧
      (∀ bb, ch.consequence = .continueGame bb →
        ∃ f t ad dd, ch.action = .attack f t ad dd) := by
  intro ch hmem
  simp only [choices_from_board_only_pass_at_end] at hmem
  split_ifs at hmem with h1 h2 h3 h4 h5
  · rw [List.mem_singleton] at hmem
    subst hmem
    exact ⟨fun _ => Or.inl ⟨b, rfl⟩, fun bb hc => by simp at hc⟩
  · rw [List.mem_singleton] at hmem
    subst hmem
    exact ⟨fun _ => Or.inr (Or.inl ⟨_, rfl⟩), fun bb hc => by simp at hc⟩
  · rw [List.mem_singleton] at hmem
    subst hmem
    exact ⟨fun _ => Or.inr (Or.inr (Or.inl ⟨b, rfl⟩)),
      fun bb hc => by simp at hc⟩
  · rw [List.mem_singleton] at hmem
    subst hmem
    exact ⟨fun _ => Or.inr (Or.inr (Or.inr ⟨_, rfl⟩)),
      fun bb hc => by simp at hc⟩
  · rw [List.mem_singleton] at hmem
    subst hmem
    exact ⟨fun _ => Or.inr (Or.inr (Or.inr ⟨_, rfl⟩)),
      fun bb hc => by simp at hc⟩
  · rw [List.mem_map] at hmem
    obtain ⟨a', ha', rfl⟩ := hmem
    obtain ⟨f, t, ad, dd, rfl⟩ := all_legal_attacks_shape _ _ a' ha'
    exact ⟨fun hp => by simp at hp, fun bb _ => ⟨f, t, ad, dd, rfl⟩⟩

/-- One layer pass preserves the rules-output shape of the state map. -/
theorem processLayer_rules (moveLimit : Nat) (layer : List Board)
    (states : States) (hr : RulesStates moveLimit states) :
    RulesStates moveLimit (processLayer moveLimit states [] layer).1 := by
  intro b cs hlk
  rcases (processLayer_spec moveLimit layer states []).2.2.2.2 b cs hlk with
    h' | ⟨h', _⟩
  · exact hr b cs h'
  · exact h'

/-- The horizon-bounded expander only stores rules outputs. -/
theorem boundedBfs_rules (moveLimit : Nat) :
    ∀ (h : Nat) (states : States) (layer : List Board),
      RulesStates moveLimit states →
      RulesStates moveLimit (boundedBfsAux moveLimit h states layer) := by
  intro h
  induction h with
  | zero =>
    intro states layer hr
    simpa only [boundedBfsAux] using hr
  | succ h ih =>
    intro states layer hr
    by_cases hl : layer.isEmpty
    · rw [show boundedBfsAux moveLimit (h + 1) states layer = states from by
        simp [boundedBfsAux, hl]]
      exact hr
    · rw [show boundedBfsAux moveLimit (h + 1) states layer =
          boundedBfsAux moveLimit h
            (processLayer moveLimit states [] layer).1
            (processLayer moveLimit states [] layer).2 from by
        simp [boundedBfsAux, hl]]
      exact ih _ _ (processLayer_rules moveLimit layer states hr)

/-- The trees grown by `start_tree_horizon_limited` only store rules
outputs. -/
theorem start_tree_rules (root : Board) (horizon moveLimit : Nat) :
    RulesStates moveLimit
      (start_tree_horizon_limited root horizon moveLimit).states := by
  unfold start_tree_horizon_limited
  exact boundedBfs_rules moveLimit horizon [] [root]
    (by intro b cs h; simp [lookupS] at h)

/-- On a tree whose stored vectors are rules outputs, the forced-move
collapse never reaches the lone-Pass-with-Continue panic. -/
theorem state_from_board_no_panic (moveLimit : Nat) (tree : Tree)
    (hr : RulesStates moveLimit tree.states) :
    ∀ (fuel : Nat) (b : Board) (trav : List (Board × Choice)) (depth : Nat)
      (outcome : LastAttack),
      state_from_board tree fuel b trav depth outcome ≠ .panicked := by
  intro fuel
  induction fuel with
  | zero =>
    intro b trav depth outcome
    simp [state_from_board]
  | succ fuel ih =>
    intro b trav depth outcome h
    simp only [state_from_board] at h
    split at h
    · simp at h
    · rename_i choices hcs
      have hrules := hr b choices hcs
      split at h
      · rename_i ch
        have hmem : ch ∈ choices_from_board_only_pass_at_end b moveLimit := by
          rw [← hrules]
          exact List.mem_singleton.mpr rfl
        split at h
        · simp at h
        · rename_i hact
          split at h
          · simp at h
          · simp at h
          · exact ih _ _ _ _ h
          · exact ih _ _ _ _ h
          · rename_i bb hcons
            rcases (rules_choice_shape b moveLimit ch hmem).1 hact with
              ⟨bb', hc⟩ | ⟨bb', hc⟩ | ⟨bb', hc⟩ | ⟨bb', hc⟩ <;>
              · rw [hcons] at hc
                simp at hc
      · simp at h

/-- The expand-and-retry loop of the session never panics on rules-shaped
trees: every rebuilt tree is rules-shaped as well. -/
theorem sessionLoop_no_panic (moveLimit : Nat) :
    ∀ (fuel : Nat) (tree : Tree) (b : Board) (outcome : LastAttack),
      RulesStates moveLimit tree.states →
      sessionLoop moveLimit fuel tree b outcome ≠ .panicked := by
  intro fuel
  induction fuel with
  | zero =>
    intro tree b outcome _
    simp [sessionLoop]
  | succ fuel ih =>
    intro tree b outcome hr h
    simp only [sessionLoop] at h
    split at h
    · simp at h
    · rename_i heq
      exact state_from_board_no_panic moveLimit tree hr (fuel + 1) b [] 1
        outcome heq
    · simp at h
    · rename_i depth heq
      exact ih _ _ _ (start_tree_rules b depth moveLimit) h

/-- Claim C10: in every choice list produced by the rules engine, a Pass
action has a Winner, GameOver, Stalemate or TurnOver consequence and a
Continue consequence comes with an Attack action; consequently the forced-
move collapse's panic branch for a lone Pass choice with a Continue
consequence is unreachable on trees built by the expander. -/
theorem claim_C10_pass_never_continue :
    (∀ (b : Board) (moveLimit : Nat) (ch : Choice),
      ch ∈ choices_from_board_only_pass_at_end b moveLimit →
      (ch.action = .pass →
        (∃ bb, ch.consequence = .winner bb) ∨
        (∃ bb, ch.consequence = .gameOver bb) ∨
        (∃ bb, ch.consequence = .stalemate bb) ∨
        (∃ bb, ch.consequence = .turnOver bb)) ∧
      (∀ bb, ch.consequence = .continueGame bb →
        ∃ f t ad dd, ch.action = .attack f t ad dd)) ∧
    (∀ (root : Board) (horizon moveLimit fuel : Nat) (b : Board)
      (trav : List (Board × Choice)) (depth : Nat) (outcome : LastAttack),
      state_from_board (start_tree_horizon_limited root horizon moveLimit)
        fuel b trav depth outcome ≠ .panicked) :=
  ⟨fun b moveLimit ch hmem => rules_choice_shape b moveLimit ch hmem,
   fun root horizon moveLimit fuel b trav depth outcome =>
     state_from_board_no_panic moveLimit _
       (start_tree_rules root horizon moveLimit) fuel b trav depth outcome⟩

/-- Witness for C10: the lone winner choice of the 1×1 board, and a concrete
collapse run that does not panic. -/
theorem claim_C10_witness :
    (⟨.pass, .winner b1x1⟩ : Choice) ∈
      choices_from_board_only_pass_at_end b1x1 10 ∧
    ((⟨.pass, .winner b1x1⟩ : Choice).action = .pass →
      (∃ bb, (⟨.pass, .winner b1x1⟩ : Choice).consequence = .winner bb) ∨
      (∃ bb, (⟨.pass, .winner b1x1⟩ : Choice).consequence = .gameOver bb) ∨
      (∃ bb, (⟨.pass, .winner b1x1⟩ : Choice).consequence = .stalemate bb) ∨
      (∃ bb, (⟨.pass, .winner b1x1⟩ : Choice).consequence = .turnOver bb)) ∧
    state_from_board (start_tree_horizon_limited b2x1 2 10) 5 b2x1 [] 1
      LastAttack.start ≠ .panicked := by
  have hmem : (⟨.pass, .winner b1x1⟩ : Choice) ∈
      choices_from_board_only_pass_at_end b1x1 10 := by decide
  exact ⟨hmem,
    (claim_C10_pass_never_continue.1 b1x1 10 _ hmem).1,
    claim_C10_pass_never_continue.2 b2x1 2 10 5 b2x1 [] 1 LastAttack.start⟩

/-- Claim C9: `Session::advance` returns the recoverable error exactly when
the index is out of bounds of the current state's choice list; in the error
case the session is unchanged and the message is the out-of-bounds one; for
every in-bounds Attack choice on a rules-shaped tree it never errors and,
fuel permitting, returns Ok with a new state pushed onto the turn history. -/
theorem claim_C9_advance (s : Session) (index aR dR fuel : Nat) (cur : State)
    (hcur : s.turns.getLast? = some cur) :
    ((∃ s' msg, advance s index aR dR fuel = .err s' msg) ↔
      cur.choices.length ≤ index) ∧
    (∀ s' msg, advance s index aR dR fuel = .err s' msg →
      s' = s ∧ msg = "Index out of bounds.") ∧
    (∀ ch, cur.choices.get? index = some ch →
      (∃ f t a d, ch.action = .attack f t a d) →
      RulesStates s.moveLimit s.tree.states →
      advance s index aR dR fuel = .fuelOut ∨
      ∃ s' st, advance s index aR dR fuel = .ok s' st ∧
        s'.turns = s.turns ++ [st] ∧ s'.moveLimit = s.moveLimit) := by
  rcases hidx : cur.choices.get? index with _ | choice
  · have hadv : advance s index aR dR fuel = .err s "Index out of bounds." := by
      simp only [advance, hcur, hidx]
    refine ⟨?_, ?_, ?_⟩
    · exact iff_of_true ⟨s, "Index out of bounds.", hadv⟩
        (List.get?_eq_none.mp hidx)
    · intro s' msg h
      rw [hadv] at h
      have := AdvanceResult.err.inj h
      exact ⟨this.1.symm, this.2.symm⟩
    · intro ch hch
      exact absurd hch (by simp)
  · have hlt : index < cur.choices.length := (List.get?_eq_some.mp hidx).1
    rcases hact : choice.action with ⟨f, t, a, d⟩ | _
    · rcases hloop : sessionLoop s.moveLimit fuel s.tree
          (if aR > dR then choice.consequence.board
           else ⟨cur.board.players,
             forkWith cur.board.grid (fun c h =>
               if c = f then ⟨h.owner, h.dice, false⟩ else h),
             cur.board.capturedDice, cur.board.moved + 1⟩)
          ⟨a, aR, d, dR⟩ with ⟨t', st⟩ | _ | _
      · have hadv : advance s index aR dR fuel =
            .ok ⟨s.turns ++ [st], t', s.moveLimit⟩ st := by
          simp only [advance, hcur, hidx, hact, hloop]
        refine ⟨iff_of_false ?_ (by omega), ?_, ?_⟩
        · rintro ⟨s', msg, h⟩
          rw [hadv] at h
          exact absurd h (by simp)
        · intro s' msg h
          rw [hadv] at h
          exact absurd h (by simp)
        · intro ch hch _ _
          exact Or.inr ⟨_, st, hadv, rfl, rfl⟩
      · have hadv : advance s index aR dR fuel = .panicked := by
          simp only [advance, hcur, hidx, hact, hloop]
        refine ⟨iff_of_false ?_ (by omega), ?_, ?_⟩
        · rintro ⟨s', msg, h⟩
          rw [hadv] at h
          exact absurd h (by simp)
        · intro s' msg h
          rw [hadv] at h
          exact absurd h (by simp)
        · intro ch hch hatk hr
          exact absurd hloop
            (sessionLoop_no_panic s.moveLimit fuel s.tree _ _ hr)
      · have hadv : advance s index aR dR fuel = .fuelOut := by
          simp only [advance, hcur, hidx, hact, hloop]
        refine ⟨iff_of_false ?_ (by omega), ?_, ?_⟩
        · rintro ⟨s', msg, h⟩
          rw [hadv] at h
          exact absurd h (by simp)
        · intro s' msg h
          rw [hadv] at h
          exact absurd h (by simp)
        · intro ch hch hatk hr
          exact Or.inl hadv
    · have hadv : advance s index aR dR fuel = .panicked := by
        simp only [advance, hcur, hidx, hact]
      refine ⟨iff_of_false ?_ (by omega), ?_, ?_⟩
      · rintro ⟨s', msg, h⟩
        rw [hadv] at h
        exact absurd h (by simp)
      · intro s' msg h
        rw [hadv] at h
        exact absurd h (by simp)
      · intro ch hch hatk hr
        cases Option.some.inj hch
        obtain ⟨f, t, a, d, he⟩ := hatk
        rw [hact] at he
        exact absurd he (by simp)

/-- Witness for C9: an out-of-bounds index on the one-attack session returns
the recoverable error with the session unchanged. -/
theorem claim_C9_witness :
    sessW.turns.getLast? = some stW ∧
    advance sessW 5 6 1 10 = .err sessW "Index out of bounds." := by
  have h := claim_C9_advance sessW 5 6 1 10 stW rfl
  obtain ⟨s', msg, he⟩ := h.1.mpr (by decide)
  obtain ⟨rfl, rfl⟩ := h.2.1 s' msg he
  exact ⟨rfl, he⟩

end DiceyDice
